import Mathlib

/-!
Verification development for the worship-setlist Chord & Key Theory Engine.

Part 1 embeds `backend/app/services/key_transition.py`; Part 2 embeds
`backend/app/services/chord_service.py`.  Strings are modelled as `List Char`
(Python `str`), Python dicts used here only for lookup are modelled as
association lists, and Python's three-valued compatibility literal is an
inductive type.
-/

namespace KeyTransition

/-- The three compatibility tiers.  The source uses the Korean string literals
"자연스러움" (natural), "괜찮음" (ok), "어색함" (awkward). -/
inductive KeyCompatibility where
  | natural
  | ok
  | awkward
deriving DecidableEq

/-- `KEY_SEMITONES` dict from key_transition.py. -/
def KEY_SEMITONES : List (List Char × Nat) :=
  [("C".data, 0), ("C#".data, 1), ("Db".data, 1), ("D".data, 2), ("D#".data, 3),
   ("Eb".data, 3), ("E".data, 4), ("F".data, 5), ("F#".data, 6), ("Gb".data, 6),
   ("G".data, 7), ("G#".data, 8), ("Ab".data, 8), ("A".data, 9), ("A#".data, 10),
   ("Bb".data, 10), ("B".data, 11)]

/-- `RELATIVE_KEYS` dict from key_transition.py. -/
def RELATIVE_KEYS : List (List Char × List Char) :=
  [("C".data, "Am".data), ("G".data, "Em".data), ("D".data, "Bm".data),
   ("A".data, "F#m".data), ("E".data, "C#m".data), ("B".data, "G#m".data),
   ("F#".data, "D#m".data), ("Gb".data, "Ebm".data), ("Db".data, "Bbm".data),
   ("Ab".data, "Fm".data), ("Eb".data, "Cm".data), ("Bb".data, "Gm".data),
   ("F".data, "Dm".data),
   ("Am".data, "C".data), ("Em".data, "G".data), ("Bm".data, "D".data),
   ("F#m".data, "A".data), ("C#m".data, "E".data), ("G#m".data, "B".data),
   ("D#m".data, "F#".data), ("Ebm".data, "Gb".data), ("Bbm".data, "Db".data),
   ("Fm".data, "Ab".data), ("Cm".data, "Eb".data), ("Gm".data, "Bb".data),
   ("Dm".data, "F".data)]

/-- `normalize_key`: `key.endswith("m")`, and `key[:-1]` when minor. -/
def normalize_key (key : List Char) : List Char × Bool :=
  let is_minor := key.getLast? = some 'm'
  (if is_minor then key.dropLast else key, is_minor)

/-- `get_semitone`: `KEY_SEMITONES.get(base, 0)`. -/
def get_semitone (key : List Char) : Nat :=
  (KEY_SEMITONES.lookup (normalize_key key).1).getD 0

/-- `get_key_distance`: folded distance `min(|to-from|, 12-|to-from|)`. -/
def get_key_distance (from_key to_key : List Char) : Nat :=
  let distance := ((get_semitone to_key : Int) - (get_semitone from_key : Int)).natAbs
  min distance (12 - distance)

/-- The directional interval `(to_semi - from_semi) % 12` (Python `%` on ints is
`Int.emod` for a positive modulus, which Lean's `%` matches). -/
def directional_interval (from_key to_key : List Char) : Int :=
  ((get_semitone to_key : Int) - (get_semitone from_key : Int)) % 12

/-- `check_key_compatibility` from key_transition.py, rule for rule. -/
def check_key_compatibility (from_key to_key : List Char) : KeyCompatibility :=
  if from_key = to_key then .natural
  else
    let distance := get_key_distance from_key to_key
    if RELATIVE_KEYS.lookup from_key = some to_key ∨
       RELATIVE_KEYS.lookup to_key = some from_key then .ok
    else if directional_interval from_key to_key = 5 ∨
            directional_interval from_key to_key = 7 then .natural
    else if distance ≤ 2 then .natural
    else if distance = 3 then .ok
    else .awkward

/-- `compatibility_order` dict in `analyze_setlist_key_flow`. -/
def compatibility_order : KeyCompatibility → Nat
  | .natural => 0
  | .ok => 1
  | .awkward => 2

/-- One `{from, to, compatibility}` record of `analyze_setlist_key_flow`. -/
structure Transition where
  fromKey : List Char
  toKey : List Char
  compat : KeyCompatibility
deriving DecidableEq

/-- The warning string appended for an awkward pair at loop index `i`
(0-based): `f"{i+1}번째 → {i+2}번째 곡: {from_key} → {to_key} 전환이 어색할 수 있습니다"`. -/
def awkward_warning (i : Nat) (from_key to_key : List Char) : List Char :=
  (Nat.repr (i + 1)).data ++ ("번째 → ".data) ++ (Nat.repr (i + 2)).data ++
    ("번째 곡: ".data) ++ from_key ++ (" → ".data) ++ to_key ++
    (" 전환이 어색할 수 있습니다".data)

/-- The `for i in range(len(keys)-1)` loop of `analyze_setlist_key_flow`:
walks adjacent pairs, carrying the 0-based index and the worst tier so far. -/
def flowAux : Nat → KeyCompatibility → List (List Char) →
    List Transition × KeyCompatibility × List (List Char)
  | i, worst, k1 :: k2 :: rest =>
    let c := check_key_compatibility k1 k2
    let worst2 := if compatibility_order c > compatibility_order worst then c else worst
    let r := flowAux (i + 1) worst2 (k2 :: rest)
    (⟨k1, k2, c⟩ :: r.1, r.2.1,
      (if c = .awkward then [awkward_warning i k1 k2] else []) ++ r.2.2)
  | _, worst, _ => ([], worst, [])

/-- Result record of `analyze_setlist_key_flow`. -/
structure FlowResult where
  overall : KeyCompatibility
  transitions : List Transition
  warnings : List (List Char)
deriving DecidableEq

/-- `analyze_setlist_key_flow` from key_transition.py. -/
def analyze_setlist_key_flow (keys : List (List Char)) : FlowResult :=
  if keys.length < 2 then ⟨.natural, [], []⟩
  else
    let r := flowAux 0 .natural keys
    ⟨r.2.1, r.1, r.2.2⟩

/-- Spec-side helper: the ordered list of adjacent pairs of a key list. -/
def adjacentPairs (keys : List (List Char)) : List (List Char × List Char) :=
  keys.zip keys.tail

/-- Spec-side helper: the worse of two tiers under NATURAL < OK < AWKWARD. -/
def tierMax (x y : KeyCompatibility) : KeyCompatibility :=
  if compatibility_order y > compatibility_order x then y else x

end KeyTransition

namespace ChordService

/-- Apostrophe character (avoids quoting issues in warning-string literals). -/
def sq : Char := Char.ofNat 39

/-- Left brace character `\x7b`. -/
def lbrace : Char := Char.ofNat 123

/-- Right brace character `\x7d`. -/
def rbrace : Char := Char.ofNat 125

/-- `CHROMATIC_SHARP` from chord_service.py. -/
def CHROMATIC_SHARP : List (List Char) :=
  [("C".data), ("C#".data), ("D".data), ("D#".data), ("E".data), ("F".data),
   ("F#".data), ("G".data), ("G#".data), ("A".data), ("A#".data), ("B".data)]

/-- `CHROMATIC_FLAT` from chord_service.py. -/
def CHROMATIC_FLAT : List (List Char) :=
  [("C".data), ("Db".data), ("D".data), ("Eb".data), ("E".data), ("F".data),
   ("Gb".data), ("G".data), ("Ab".data), ("A".data), ("Bb".data), ("B".data)]

/-- `FLAT_TO_SHARP` from chord_service.py. -/
def FLAT_TO_SHARP : List (List Char × List Char) :=
  [(("Db".data), ("C#".data)), (("Eb".data), ("D#".data)), (("Gb".data), ("F#".data)),
   (("Ab".data), ("G#".data)), (("Bb".data), ("A#".data))]

/-- `FLAT_KEYS` from chord_service.py. -/
def FLAT_KEYS : List (List Char) :=
  [("F".data), ("Bb".data), ("Eb".data), ("Ab".data), ("Db".data), ("Gb".data),
   ("Dm".data), ("Gm".data), ("Cm".data), ("Fm".data), ("Bbm".data), ("Ebm".data)]

/-- ASCII whitespace stripped by Python `str.strip`/`rstrip` (Python also strips
rarer Unicode whitespace, which never occurs in the strings reasoned about here). -/
def isPySpace (c : Char) : Bool :=
  c = ' ' || c = '\t' || c = '\n' || c = '\r' || c = Char.ofNat 11 || c = Char.ofNat 12

/-- Python `str.rstrip()`: drop trailing whitespace. -/
def rstrip : List Char → List Char
  | [] => []
  | c :: rest =>
    match rstrip rest with
    | [] => if isPySpace c then [] else [c]
    | r => c :: r

/-- Python `str.strip()`: drop leading and trailing whitespace. -/
def pyStrip (l : List Char) : List Char := rstrip (l.dropWhile isPySpace)

/-- The character class `[A-Ga-g]` that roots the chord regexes. -/
def isRootLetter (c : Char) : Bool :=
  ('A' ≤ c && c ≤ 'G') || ('a' ≤ c && c ≤ 'g')

/-- The accidental class `[#b]`. -/
def isAccidental (c : Char) : Bool := c = '#' || c = 'b'

/-- One maximal non-overlapping unit of `CHORD_PATTERN` scanning: either a
single character of non-chord text or the contents of one matched bracket. -/
inductive Piece where
  | text : List Char → Piece
  | chord : List Char → Piece
deriving DecidableEq

/-- Attempt of `CHORD_PATTERN = \[([A-Ga-g][#b]?[^]]*)\]` just after an `[`:
the contents must start with `A–G`/`a–g` and run to the next `]` (any
non-`]` characters, newline included).  Returns the contents and the rest of
the input after the closing `]`. -/
def tryChord (rest : List Char) : Option (List Char × List Char) :=
  match rest with
  | [] => none
  | c :: rest2 =>
    if isRootLetter c then
      match rest2.dropWhile (· ≠ ']') with
      | [] => none
      | _ :: tail => some (c :: rest2.takeWhile (· ≠ ']'), tail)
    else none

/-- Fuel-driven left-to-right scan of `CHORD_PATTERN` (the semantics of
`re.finditer`/`re.sub`: try a match at each position, advance one character on
failure, continue after the match on success).  Fuel `≥ length` always
suffices. -/
def tokenizeF : Nat → List Char → List Piece
  | 0, _ => []
  | _ + 1, [] => []
  | fuel + 1, c :: rest =>
    if c = '[' then
      match tryChord rest with
      | some bt => .chord bt.1 :: tokenizeF fuel bt.2
      | none => .text [c] :: tokenizeF fuel rest
    else .text [c] :: tokenizeF fuel rest

/-- The `CHORD_PATTERN` scan of a string. -/
def tokenize (l : List Char) : List Piece := tokenizeF l.length l

/-- Re-render one piece: matched chords get their brackets back. -/
def renderPiece : Piece → List Char
  | .text s => s
  | .chord b => '[' :: (b ++ [']'])

/-- Re-render a piece list to a string. -/
def flattenPieces (ps : List Piece) : List Char := (ps.map renderPiece).flatten

/-- `CHORD_PATTERN.sub`: rewrite every matched chord body, keep text. -/
def mapChords (f : List Char → List Char) (ps : List Piece) : List Piece :=
  ps.map fun p => match p with | .chord b => .chord (f b) | .text s => .text s

/-- The matched chord bodies, in order (`finditer` group 1 / `findall`). -/
def chordBodies (ps : List Piece) : List (List Char) :=
  ps.filterMap fun p => match p with | .chord b => some b | .text _ => none

/-- Parsed chord record (dataclass `ChordInfo`). -/
structure ChordInfo where
  root : List Char
  quality : List Char
  bass : Option (List Char)
deriving DecidableEq

/-- The regex `^([A-Ga-g][#b]?)(.*?)$` of `parse_chord`, applied to the
chord body: group 1 is the root letter plus an optional accidental; the lazy
`(.*?)$` (with `.` not matching newline, and `$` also matching just before a
final newline) succeeds iff the remainder has no newline except possibly a
trailing one, which is then left out of group 2. -/
def rootSplit (body : List Char) : Option (List Char × List Char) :=
  match body with
  | [] => none
  | c :: rest =>
    if isRootLetter c then
      let p : List Char × List Char :=
        match rest with
        | a :: r2 => if isAccidental a then ([a], r2) else ([], a :: r2)
        | [] => ([], [])
      if '\n' ∈ p.2 then
        if p.2.getLast? = some '\n' ∧ '\n' ∉ p.2.dropLast then
          some (c :: p.1, p.2.dropLast)
        else none
      else some (c :: p.1, p.2)
    else none

/-- `match.group(1).capitalize()` followed by `root[0].upper()+root[1].lower()`:
first character uppercased, the rest lowercased. -/
def normRoot : List Char → List Char
  | [] => []
  | c :: rest => c.toUpper :: rest.map Char.toLower

/-- `chord_str.split('/')`: the part before the first `/`, and (when a `/`
occurs) the part between the first and second `/` (`parts[1]`). -/
def slashSplit (t : List Char) : List Char × Option (List Char) :=
  if '/' ∈ t then
    ((t.takeWhile (· ≠ '/')), some (((t.dropWhile (· ≠ '/')).tail).takeWhile (· ≠ '/')))
  else (t, none)

/-- `ChordService.parse_chord`. -/
def parse_chord (chord_str : List Char) : ChordInfo :=
  let t := pyStrip chord_str
  let sp := slashSplit t
  match rootSplit sp.1 with
  | some rq => ⟨normRoot rq.1, rq.2, sp.2⟩
  | none => ⟨sp.1, [], sp.2⟩

/-- The case normalization inside `get_semitone_index`: for more than one
character, `note[0].upper() + note[1].lower()` (later characters dropped),
otherwise `note.upper()`. -/
def noteCaseNorm : List Char → List Char
  | c0 :: c1 :: _ => [c0.toUpper, c1.toLower]
  | [c0] => [c0.toUpper]
  | [] => []

/-- `ChordService.get_semitone_index`: strip, normalize case of the first two
characters only, convert flats, look up in the sharp chromatic scale,
defaulting to 0 on `ValueError`. -/
def get_semitone_index (note : List Char) : Nat :=
  let n2 := noteCaseNorm (pyStrip note)
  let n3 := (FLAT_TO_SHARP.lookup n2).getD n2
  match CHROMATIC_SHARP.indexOf? n3 with
  | some i => i
  | none => 0

/-- `ChordService.transpose_note`. -/
def transpose_note (note : List Char) (semitones : Nat) (use_flats : Bool) : List Char :=
  if note = [] then note
  else
    let new_index := (get_semitone_index note + semitones) % 12
    if use_flats then CHROMATIC_FLAT.getD new_index [] else CHROMATIC_SHARP.getD new_index []

/-- `ChordService.transpose_chord` (empty strings are falsy in Python: an
empty bass is dropped, and an empty transposed bass is not re-attached). -/
def transpose_chord (chord_str : List Char) (semitones : Nat) (use_flats : Bool) : List Char :=
  let ci := parse_chord chord_str
  let new_root := transpose_note ci.root semitones use_flats
  let new_bass : Option (List Char) :=
    match ci.bass with
    | some b => if b = [] then none else some (transpose_note b semitones use_flats)
    | none => none
  let result := new_root ++ ci.quality
  match new_bass with
  | some nb => if nb = [] then result else result ++ '/' :: nb
  | none => result

/-- `ChordService.calculate_transpose_semitones`: `key.replace("m","")` removes
every `m`, then strip, then `(to_index - from_index) % 12`. -/
def calculate_transpose_semitones (from_key to_key : List Char) : Nat :=
  let from_root := pyStrip (from_key.filter (· ≠ 'm'))
  let to_root := pyStrip (to_key.filter (· ≠ 'm'))
  (((get_semitone_index to_root : Int) - (get_semitone_index from_root : Int)) % 12).toNat

/-- `ChordService.transpose_chordpro`. -/
def transpose_chordpro (content from_key to_key : List Char) : List Char :=
  let semitones := calculate_transpose_semitones from_key to_key
  if semitones = 0 then content
  else
    let use_flats := FLAT_KEYS.contains to_key
    flattenPieces (mapChords (fun c => transpose_chord c semitones use_flats) (tokenize content))

/-- Python regex `\w` (ASCII part; the inputs reasoned about contain no
non-ASCII word characters). -/
def isWordChar (c : Char) : Bool := c.isAlpha || c.isDigit || c = '_'

/-- One attempt of `DIRECTIVE_PATTERN = \{(\w+):\s*([^}]*)\}|\{(\w+)\}` at the
head of the input.  Returns the directive name, and `some value` when the
first alternative (`{name: value}`) matched, `none` for the bare `{name}`
alternative. -/
def dirMatchAt (l : List Char) : Option (List Char × Option (List Char)) :=
  match l with
  | [] => none
  | c :: rest =>
    if c = lbrace then
      let w := rest.takeWhile isWordChar
      let r1 := rest.dropWhile isWordChar
      if w = [] then none
      else
        match r1 with
        | ':' :: r2 =>
          if rbrace ∈ r2 then
            some (w, some ((r2.dropWhile isPySpace).takeWhile (· ≠ rbrace)))
          else none
        | c2 :: _ => if c2 = rbrace then some (w, none) else none
        | [] => none
    else none

/-- `DIRECTIVE_PATTERN.search`: leftmost match. -/
def directiveSearch : List Char → Option (List Char × Option (List Char))
  | [] => none
  | c :: rest =>
    match dirMatchAt (c :: rest) with
    | some m => some m
    | none => directiveSearch rest

/-- Digit run to number. -/
def digitsToNat (ds : List Char) : Nat := ds.foldl (fun n c => 10 * n + (c.toNat - 48)) 0

/-- Python `int(value)` for the tempo directive: strip, optional sign, a
nonempty digit run (Python additionally accepts underscore separators and
Unicode digits, which no claim depends on); `None` models `ValueError`. -/
def pyInt (v : List Char) : Option Int :=
  match pyStrip v with
  | [] => none
  | c :: rest =>
    if c = '-' then
      if rest ≠ [] ∧ rest.all Char.isDigit then some (-(digitsToNat rest : Int)) else none
    else if c = '+' then
      if rest ≠ [] ∧ rest.all Char.isDigit then some ((digitsToNat rest : Int)) else none
    else if (c :: rest).all Char.isDigit then some ((digitsToNat (c :: rest) : Int)) else none

/-- A `(chord, lyric)` segment of a parsed line. -/
abbrev Segment := Option (List Char) × List Char

/-- `segments[-1] = (prev_chord, prev_lyric + s)`. -/
def appendToLast (segments : List Segment) (s : List Char) : List Segment :=
  match segments with
  | [] => []
  | [(c, t)] => [(c, t ++ s)]
  | x :: rest => x :: appendToLast rest s

/-- One step of the segment-building loop of `parse_chordpro`: non-chord text
accumulates onto the last segment (or opens a chordless leading segment),
every matched chord opens a new segment with empty lyrics. -/
def segStep (segments : List Segment) : Piece → List Segment
  | .text s =>
    if segments = [] then (if s = [] then [] else [(none, s)]) else appendToLast segments s
  | .chord c => segments ++ [(some c, [])]

/-- The segments of one (already rstripped, non-directive) line. -/
def segmentsOfLine (line : List Char) : List Segment :=
  (tokenize line).foldl segStep []

/-- Parsed document (dataclass `ParsedChordPro`), also the running state of
`parse_chordpro`'s line loop. -/
structure ParsedChordPro where
  title : Option (List Char)
  artist : Option (List Char)
  key : Option (List Char)
  tempo : Option Int
  lines : List (List Segment)
  raw_chords : List (List Char)
deriving DecidableEq

/-- One iteration of `parse_chordpro`'s `for line in content.split('\n')`:
rstrip; a line with a directive match only updates metadata (`continue`);
otherwise the line is segmented and its chords appended to `raw_chords`. -/
def processLine (st : ParsedChordPro) (rawline : List Char) : ParsedChordPro :=
  let line := rstrip rawline
  match directiveSearch line with
  | some m =>
    let directive := m.1.map Char.toLower
    let value := m.2.getD []
    if directive = ("title".data) ∨ directive = ("t".data) then
      { st with title := some value }
    else if directive = ("artist".data) ∨ directive = ("subtitle".data) ∨
            directive = ("st".data) then
      { st with artist := some value }
    else if directive = ("key".data) then
      { st with key := some value }
    else if directive = ("tempo".data) ∨ directive = ("bpm".data) then
      match pyInt value with
      | some n => { st with tempo := some n }
      | none => st
    else st
  | none =>
    let ps := tokenize line
    { st with lines := st.lines ++ [(tokenize line).foldl segStep []],
              raw_chords := st.raw_chords ++ chordBodies ps }

/-- `ChordService.parse_chordpro`. -/
def parse_chordpro (content : List Char) : ParsedChordPro :=
  (content.splitOn '\n').foldl processLine ⟨none, none, none, none, [], []⟩

/-- `root_counts[root] = root_counts.get(root, 0) + k` on an insertion-ordered
dict. -/
def bumpRoot (counts : List (List Char × Nat)) (root : List Char) (k : Nat) :
    List (List Char × Nat) :=
  match counts with
  | [] => [(root, k)]
  | (r, n) :: rest => if r = root then (r, n + k) :: rest else (r, n) :: bumpRoot rest root k

/-- Python `max(iterable, key=...)`: the first element attaining the maximum
count (later elements replace only on strictly greater count). -/
def maxKeyAux (best : List Char × Nat) : List (List Char × Nat) → List Char
  | [] => best.1
  | (a, n) :: rest => if n > best.2 then maxKeyAux (a, n) rest else maxKeyAux best rest

/-- The chord-tally part of `detect_key` (after the metadata short-circuit):
count roots, give the first chord's root two extra points, take the
insertion-ordered maximum. -/
def detectFromChords (chords : List (List Char)) : Option (List Char) :=
  match chords with
  | [] => none
  | c0 :: _ =>
    let counts := chords.foldl (fun m c => bumpRoot m ((parse_chord c).root) 1) []
    let counts2 := bumpRoot counts ((parse_chord c0).root) 2
    match counts2 with
    | [] => none
    | b :: rest => some (maxKeyAux b rest)

/-- `ChordService.detect_key` (`if parsed.key:` is Python truthiness, so an
empty metadata key falls through to the chord tally). -/
def detect_key (content : List Char) : Option (List Char) :=
  let parsed := parse_chordpro content
  match parsed.key with
  | some k => if k = [] then detectFromChords parsed.raw_chords else some k
  | none => detectFromChords parsed.raw_chords

/-- `f"Mismatched brackets: {open_count} '[' vs {close_count} ']'"`. -/
def mismatchWarning (oc cc : Nat) : List Char :=
  ("Mismatched brackets: ".data) ++ (Nat.repr oc).data ++ [' ', sq, '[', sq] ++
    (" vs ".data) ++ (Nat.repr cc).data ++ [' ', sq, ']', sq]

/-- `"Empty chord brackets found"`. -/
def emptyBracketsWarning : List Char := ("Empty chord brackets found".data)

/-- `f"Invalid chord: {chord}"`. -/
def invalidChordWarning (c : List Char) : List Char := ("Invalid chord: ".data) ++ c

/-- `re.match(r'^[A-Ga-g]', chord)` as a boolean. -/
def startsWithChordLetter : List Char → Bool
  | [] => false
  | c :: _ => isRootLetter c

/-- Python substring test `'[]' in content`: some position starts with `[`
immediately followed by `]`. -/
def hasEmptyBrackets : List Char → Bool
  | [] => false
  | c :: rest => (c = '[' && rest.head? = some ']') || hasEmptyBrackets rest

/-- `ChordService.validate_chordpro`. -/
def validate_chordpro (content : List Char) : Bool × List (List Char) :=
  let open_count := content.count '['
  let close_count := content.count ']'
  let w1 := if open_count ≠ close_count then [mismatchWarning open_count close_count] else []
  let w2 := if hasEmptyBrackets content then [emptyBracketsWarning] else []
  let w3 := (chordBodies (tokenize content)).filterMap
    (fun c => if startsWithChordLetter c then none else some (invalidChordWarning c))
  let warnings := w1 ++ w2 ++ w3
  (warnings.isEmpty, warnings)

/-- Pitch class of a chord body's root, as the code itself measures it. -/
def rootPitchClass (b : List Char) : Nat := get_semitone_index ((parse_chord b).root)

/-- Pitch class of a chord body's bass; an absent or empty (falsy) bass has
none. -/
def bassPitchClass (b : List Char) : Option Nat :=
  match (parse_chord b).bass with
  | some bs => if bs = [] then none else some (get_semitone_index bs)
  | none => none

/-- Root and bass pitch classes of every bracketed chord of a document, in
order. -/
def chordPitchClasses (content : List Char) : List (Nat × Option Nat) :=
  (chordBodies (tokenize content)).map (fun b => (rootPitchClass b, bassPitchClass b))

/-- Forgets chord bodies, keeping the text/chord shape of a scan. -/
def pieceShape : Piece → Piece
  | .text s => .text s
  | .chord _ => .chord []

/-- Number of newline characters (line count minus one). -/
def newlineCount (l : List Char) : Nat := l.count '\n'

/-- Rebuild a line from its segments: each chord-bearing segment contributes
its original bracketed chord before its lyric. -/
def reconSegments (segments : List Segment) : List Char :=
  (segments.map fun s =>
    match s.1 with
    | some c => '[' :: (c ++ [']']) ++ s.2
    | none => s.2).flatten

/-- What `tokenize` guarantees of every matched chord body: nonempty, starts
with a root letter, contains no `]`. -/
def goodBody (b : List Char) : Prop :=
  b ≠ [] ∧ isRootLetter (b.headD ' ') = true ∧ ']' ∉ b

/-- Spec-side helper for key detection: the distinct roots in first-occurrence
order. -/
def firstOccur (roots : List (List Char)) : List (List Char) :=
  roots.foldl (fun acc r => if r ∈ acc then acc else acc ++ [r]) []

/-- Spec-side helper for key detection: occurrences of a root, plus two bonus
points when it is the first chord's root. -/
def rootTotals (roots : List (List Char)) (r : List Char) : Nat :=
  roots.count r + (if roots.head? = some r then 2 else 0)

/-- The parsed roots of a chord list, in order. -/
def chordRoots (chords : List (List Char)) : List (List Char) :=
  chords.map fun c => (parse_chord c).root

/-- Python truthiness of an optional string: an absent or empty bass behaves
as no bass. -/
def truthyBass : Option (List Char) → Option (List Char)
  | some x => if x = [] then none else some x
  | none => none

/-- The well-formedness invariant produced by `tokenize` and preserved by
chord replacement: text pieces are single characters, a text `[` is never
followed by matchable chord material, chord bodies are nonempty, start with a
root letter and contain no `]`. -/
inductive GoodPieces : List Piece → Prop where
  | nil : GoodPieces []
  | text_other {c : Char} {rest : List Piece} : c ≠ '[' → GoodPieces rest →
      GoodPieces (.text [c] :: rest)
  | text_lb {rest : List Piece} : tryChord (flattenPieces rest) = none → GoodPieces rest →
      GoodPieces (.text ['['] :: rest)
  | chord {b : List Char} {rest : List Piece} : b ≠ [] → isRootLetter (b.headD ' ') →
      ']' ∉ b → GoodPieces rest → GoodPieces (.chord b :: rest)

end ChordService

section KeyTransitionTheorems

open KeyTransition

/-- Helper: `flowAux` computed in closed form over adjacent pairs. -/
theorem flowAux_eq (ks : List (List Char)) : ∀ (i : Nat) (w : KeyCompatibility),
    flowAux i w ks =
      ((adjacentPairs ks).map fun p => Transition.mk p.1 p.2 (check_key_compatibility p.1 p.2),
       (adjacentPairs ks).foldl (fun acc p => tierMax acc (check_key_compatibility p.1 p.2)) w,
       ((adjacentPairs ks).enumFrom i).filterMap fun q =>
         if check_key_compatibility q.2.1 q.2.2 = .awkward then
           some (awkward_warning q.1 q.2.1 q.2.2) else none) := by
  induction ks with
  | nil => intro i w; simp [flowAux, adjacentPairs]
  | cons k1 rest ih =>
    intro i w
    cases rest with
    | nil => simp [flowAux, adjacentPairs]
    | cons k2 rest2 =>
      have h := ih (i + 1)
      simp only [flowAux, h]
      simp only [adjacentPairs, List.tail_cons, List.zip_cons_cons, List.map_cons,
        List.foldl_cons, List.enumFrom_cons, List.filterMap_cons, tierMax]
      by_cases hc : check_key_compatibility k1 k2 = KeyCompatibility.awkward <;>
        simp [hc]

/-- Helper: `foldl tierMax` is an upper bound of its arguments and is either
the seed or one of the list elements. -/
theorem tierMax_foldl_spec (l : List KeyCompatibility) : ∀ w : KeyCompatibility,
    compatibility_order w ≤ compatibility_order (l.foldl tierMax w) ∧
    (∀ x ∈ l, compatibility_order x ≤ compatibility_order (l.foldl tierMax w)) ∧
    (l.foldl tierMax w = w ∨ l.foldl tierMax w ∈ l) := by
  induction l with
  | nil => intro w; simp
  | cons a l ih =>
    intro w
    simp only [List.foldl_cons]
    obtain ⟨h1, h2, h3⟩ := ih (tierMax w a)
    have hwa : compatibility_order w ≤ compatibility_order (tierMax w a) := by
      unfold tierMax; split <;> omega
    have haa : compatibility_order a ≤ compatibility_order (tierMax w a) := by
      unfold tierMax; split <;> omega
    refine ⟨le_trans hwa h1, ?_, ?_⟩
    · intro x hx
      rcases List.mem_cons.mp hx with rfl | hx
      · exact le_trans haa h1
      · exact h2 x hx
    · rcases h3 with h3 | h3
      · rw [h3]
        unfold tierMax
        split
        · exact Or.inr (List.mem_cons_self a l)
        · exact Or.inl rfl
      · exact Or.inr (List.mem_cons_of_mem a h3)

/-- C1: `check_key_compatibility` evaluates exactly the ordered rule chain:
(1) equal strings give NATURAL; (2) else a relative-major/minor pair (either
direction) gives OK; (3) else a directional interval of 5 or 7 gives NATURAL;
(4) else folded distance 0–2 gives NATURAL, 3 gives OK, 4+ gives AWKWARD; with
the four spot checks, where `G → D` has folded distance 5 yet is NATURAL by
rule 3. -/
theorem c1_classify_transition_rule_chain :
    (∀ f t : List Char, f = t → check_key_compatibility f t = .natural) ∧
    (∀ f t : List Char, f ≠ t →
      (RELATIVE_KEYS.lookup f = some t ∨ RELATIVE_KEYS.lookup t = some f) →
      check_key_compatibility f t = .ok) ∧
    (∀ f t : List Char, f ≠ t →
      ¬(RELATIVE_KEYS.lookup f = some t ∨ RELATIVE_KEYS.lookup t = some f) →
      (directional_interval f t = 5 ∨ directional_interval f t = 7) →
      check_key_compatibility f t = .natural) ∧
    (∀ f t : List Char, f ≠ t →
      ¬(RELATIVE_KEYS.lookup f = some t ∨ RELATIVE_KEYS.lookup t = some f) →
      ¬(directional_interval f t = 5 ∨ directional_interval f t = 7) →
      check_key_compatibility f t =
        (if get_key_distance f t ≤ 2 then .natural
         else if get_key_distance f t = 3 then .ok
         else .awkward)) ∧
    check_key_compatibility ("C".data) ("C".data) = .natural ∧
    check_key_compatibility ("C".data) ("Am".data) = .ok ∧
    check_key_compatibility ("C".data) ("F#".data) = .awkward ∧
    check_key_compatibility ("G".data) ("D".data) = .natural ∧
    get_key_distance ("G".data) ("D".data) = 5 := by
  refine ⟨?_, ?_, ?_, ?_, by decide, by decide, by decide, by decide, by decide⟩
  · intro f t h; simp [check_key_compatibility, h]
  · intro f t h hrel; simp [check_key_compatibility, h, hrel]
  · intro f t h hrel hint; simp [check_key_compatibility, h, hrel, hint]
  · intro f t h hrel hint; simp [check_key_compatibility, h, hrel, hint]

/-- Witness for C1: the rule-2 and rule-3 conjuncts applied at concrete keys. -/
theorem c1_classify_transition_rule_chain_witness :
    check_key_compatibility ("C".data) ("Am".data) = .ok ∧
    check_key_compatibility ("G".data) ("D".data) = .natural :=
  ⟨c1_classify_transition_rule_chain.2.1 ("C".data) ("Am".data) (by decide)
      (Or.inl (by decide)),
   c1_classify_transition_rule_chain.2.2.1 ("G".data) ("D".data) (by decide) (by decide)
      (Or.inr (by decide))⟩

/-- C8: `analyze_setlist_key_flow` returns NATURAL with empty transitions and
warnings for fewer than 2 keys; otherwise it records one `{from, to, tier}`
entry per adjacent pair in order, the overall tier is the maximum under
NATURAL < OK < AWKWARD, and exactly the AWKWARD pairs contribute warnings
citing their 1-based positions; with the `["C","F#","Bb"]` example. -/
theorem c8_analyze_setlist_key_flow :
    (∀ keys : List (List Char), keys.length < 2 →
      analyze_setlist_key_flow keys = ⟨.natural, [], []⟩) ∧
    (∀ keys : List (List Char), 2 ≤ keys.length →
      (analyze_setlist_key_flow keys).transitions =
        (adjacentPairs keys).map
          (fun p => Transition.mk p.1 p.2 (check_key_compatibility p.1 p.2)) ∧
      (analyze_setlist_key_flow keys).overall =
        ((adjacentPairs keys).map fun p => check_key_compatibility p.1 p.2).foldl
          tierMax .natural ∧
      (∀ p ∈ adjacentPairs keys,
        compatibility_order (check_key_compatibility p.1 p.2) ≤
          compatibility_order (analyze_setlist_key_flow keys).overall) ∧
      ((analyze_setlist_key_flow keys).overall = .natural ∨
        (analyze_setlist_key_flow keys).overall ∈
          (adjacentPairs keys).map fun p => check_key_compatibility p.1 p.2) ∧
      (analyze_setlist_key_flow keys).warnings =
        ((adjacentPairs keys).enumFrom 0).filterMap fun q =>
          if check_key_compatibility q.2.1 q.2.2 = .awkward then
            some (awkward_warning q.1 q.2.1 q.2.2)
          else none) ∧
    analyze_setlist_key_flow [("C".data), ("F#".data), ("Bb".data)] =
      ⟨.awkward,
       [⟨("C".data), ("F#".data), .awkward⟩, ⟨("F#".data), ("Bb".data), .awkward⟩],
       [("1번째 → 2번째 곡: C → F# 전환이 어색할 수 있습니다".data),
        ("2번째 → 3번째 곡: F# → Bb 전환이 어색할 수 있습니다".data)]⟩ := by
  refine ⟨?_, ?_, by decide⟩
  · intro keys h; simp [analyze_setlist_key_flow, h]
  · intro keys h
    have h2 : ¬ keys.length < 2 := by omega
    have he := flowAux_eq keys 0 .natural
    have hov : (analyze_setlist_key_flow keys).overall =
        ((adjacentPairs keys).map fun p => check_key_compatibility p.1 p.2).foldl
          tierMax .natural := by
      simp [analyze_setlist_key_flow, h2, he, List.foldl_map]
    refine ⟨?_, hov, ?_, ?_, ?_⟩
    · simp [analyze_setlist_key_flow, h2, he]
    · intro p hp
      rw [hov]
      exact (tierMax_foldl_spec _ _).2.1 _ (List.mem_map_of_mem _ hp)
    · rw [hov]; exact (tierMax_foldl_spec _ _).2.2
    · simp [analyze_setlist_key_flow, h2, he]

/-- Witness for C8: both implication conjuncts applied at concrete setlists. -/
theorem c8_analyze_setlist_key_flow_witness :
    analyze_setlist_key_flow [("G".data)] = ⟨.natural, [], []⟩ ∧
    (analyze_setlist_key_flow [("C".data), ("F#".data), ("Bb".data)]).transitions =
      (adjacentPairs [("C".data), ("F#".data), ("Bb".data)]).map
        (fun p => Transition.mk p.1 p.2 (check_key_compatibility p.1 p.2)) :=
  ⟨c8_analyze_setlist_key_flow.1 [("G".data)] (by decide),
   (c8_analyze_setlist_key_flow.2.1 [("C".data), ("F#".data), ("Bb".data)] (by decide)).1⟩

end KeyTransitionTheorems

section ChordServiceTheorems

open KeyTransition ChordService

/-- C9: an unknown key name defaults its pitch class to 0 (treated as "C")
rather than failing: whenever the chromatic lookup of the function's own
normalization of a note fails, `get_semitone_index` returns 0; whenever the
`KEY_SEMITONES` lookup of a normalized key fails, `get_semitone` returns 0;
and transposition treats such a key exactly like "C". -/
theorem c9_unknown_key_defaults_to_zero :
    (∀ note : List Char,
      CHROMATIC_SHARP.indexOf?
        ((FLAT_TO_SHARP.lookup (noteCaseNorm (pyStrip note))).getD
          (noteCaseNorm (pyStrip note))) = none →
      get_semitone_index note = 0) ∧
    (∀ key : List Char, KEY_SEMITONES.lookup (KeyTransition.normalize_key key).1 = none →
      KeyTransition.get_semitone key = 0) ∧
    (∀ semitones : Nat, ∀ use_flats : Bool,
      transpose_note ("H".data) semitones use_flats =
        transpose_note ("C".data) semitones use_flats) := by
  refine ⟨?_, ?_, ?_⟩
  · intro note h
    simp only [get_semitone_index, h]
  · intro key h
    simp [KeyTransition.get_semitone, h]
  · intro semitones use_flats
    have h1 : get_semitone_index ("H".data) = 0 := by decide
    have h2 : get_semitone_index ("C".data) = 0 := by decide
    simp [transpose_note, h1, h2]

/-- Witness for C9: both fallback conjuncts applied at the unknown key "H". -/
theorem c9_unknown_key_defaults_to_zero_witness :
    get_semitone_index ("H".data) = 0 ∧ KeyTransition.get_semitone ("H#m".data) = 0 :=
  ⟨c9_unknown_key_defaults_to_zero.1 ("H".data) (by decide),
   c9_unknown_key_defaults_to_zero.2.1 ("H#m".data) (by decide)⟩

/-- Helper: a root letter is not whitespace nor one of the structural
characters. -/
theorem isRootLetter_ne_special {c : Char} (h : isRootLetter c = true) :
    isPySpace c = false ∧ c ≠ '[' ∧ c ≠ ']' ∧ c ≠ '/' ∧ c ≠ '\n' := by
  refine ⟨?_, ?_, ?_, ?_, ?_⟩
  · cases hs : isPySpace c
    · rfl
    · exfalso
      unfold isPySpace at hs
      simp only [Bool.or_eq_true, decide_eq_true_eq] at hs
      rcases hs with ((((rfl | rfl) | rfl) | rfl) | rfl) | rfl <;>
        exact absurd h (by decide)
  · intro he; rw [he] at h; exact absurd h (by decide)
  · intro he; rw [he] at h; exact absurd h (by decide)
  · intro he; rw [he] at h; exact absurd h (by decide)
  · intro he; rw [he] at h; exact absurd h (by decide)

/-- Helper: the head of a nonempty `dropWhile` result fails the predicate. -/
theorem dropWhile_head_false {p : Char → Bool} :
    ∀ (l : List Char) (x : Char) (xs : List Char), l.dropWhile p = x :: xs → p x = false := by
  intro l
  induction l with
  | nil => intro x xs h; simp at h
  | cons a l ih =>
    intro x xs h
    by_cases ha : p a
    · rw [List.dropWhile_cons_of_pos ha] at h; exact ih x xs h
    · rw [List.dropWhile_cons_of_neg ha] at h
      cases h
      simpa using ha

/-- Helper: `takeWhile` passes over a block of satisfying elements. -/
theorem takeWhile_all_append {p : Char → Bool} :
    ∀ (l1 l2 : List Char), (∀ x ∈ l1, p x = true) →
      (l1 ++ l2).takeWhile p = l1 ++ l2.takeWhile p := by
  intro l1
  induction l1 with
  | nil => intro l2 _; simp
  | cons a l ih =>
    intro l2 h
    have ha : p a := h a (List.mem_cons_self a l)
    simp only [List.cons_append, List.takeWhile_cons_of_pos ha]
    rw [ih l2 (fun x hx => h x (List.mem_cons_of_mem a hx))]

/-- Helper: `dropWhile` skips a block of satisfying elements. -/
theorem dropWhile_all_append {p : Char → Bool} :
    ∀ (l1 l2 : List Char), (∀ x ∈ l1, p x = true) →
      (l1 ++ l2).dropWhile p = l2.dropWhile p := by
  intro l1
  induction l1 with
  | nil => intro l2 _; simp
  | cons a l ih =>
    intro l2 h
    have ha : p a := h a (List.mem_cons_self a l)
    simp only [List.cons_append, List.dropWhile_cons_of_pos ha]
    exact ih l2 (fun x hx => h x (List.mem_cons_of_mem a hx))

/-- Helper: a successful `tryChord` decomposes its input as
`body ++ ']' :: tail` with a well-formed body. -/
theorem tryChord_some {rest body tail : List Char}
    (h : tryChord rest = some (body, tail)) :
    rest = body ++ ']' :: tail ∧ goodBody body := by
  cases rest with
  | nil => simp [tryChord] at h
  | cons c rest2 =>
    by_cases hc : isRootLetter c
    · rw [show tryChord (c :: rest2) =
          (match rest2.dropWhile (· ≠ ']') with
           | [] => none
           | _ :: tail => some (c :: rest2.takeWhile (· ≠ ']'), tail)) from by
        simp [tryChord, hc]] at h
      cases hd : rest2.dropWhile (fun x => decide (x ≠ ']')) with
      | nil => rw [hd] at h; simp at h
      | cons y tail2 =>
        rw [hd] at h
        have hy2 : y = ']' := by
          simpa using dropWhile_head_false rest2 y tail2 hd
        subst hy2
        have hsplit : rest2.takeWhile (fun x => decide (x ≠ ']')) ++ ']' :: tail2 =
            rest2 := by
          conv_rhs => rw [← List.takeWhile_append_dropWhile
            (fun x => decide (x ≠ ']')) rest2]
          rw [hd]
        simp only [Option.some.injEq, Prod.mk.injEq] at h
        obtain ⟨hb, ht⟩ := h
        constructor
        · rw [← hb, ← ht]
          conv_lhs => rw [← hsplit]
          simp
        · rw [← hb]
          refine ⟨by simp, by simpa using hc, ?_⟩
          intro hmem
          rcases List.mem_cons.mp hmem with h1 | h1
          · exact (isRootLetter_ne_special hc).2.2.1 h1.symm
          · have := List.mem_takeWhile_imp h1
            simp at this
    · simp [tryChord, hc] at h

/-- Witnessed chord bodies re-match: `tryChord` on `body ++ ']' :: tail`
recovers exactly the body and tail. -/
theorem tryChord_append {b t : List Char} (hb : goodBody b) :
    tryChord (b ++ ']' :: t) = some (b, t) := by
  obtain ⟨hne, hroot, hnb⟩ := hb
  cases b with
  | nil => cases hne rfl
  | cons c bs =>
    simp only [List.headD_cons] at hroot
    have hall : ∀ x ∈ bs, (fun x => decide (x ≠ ']')) x = true := by
      intro x hx
      simp only [decide_eq_true_eq]
      intro hx2
      exact hnb (by simp [hx2 ▸ hx])
    simp only [List.cons_append, tryChord, hroot, if_true]
    rw [dropWhile_all_append bs (']' :: t) hall,
        takeWhile_all_append bs (']' :: t) hall]
    simp


/-- Helper: `flattenPieces` on a cons. -/
theorem flattenPieces_cons (p : Piece) (ps : List Piece) :
    flattenPieces (p :: ps) = renderPiece p ++ flattenPieces ps := by
  simp [flattenPieces]

/-- Helper: a `tokenizeF` scan with enough fuel re-renders to its input. -/
theorem flattenPieces_tokenizeF :
    ∀ (fuel : Nat) (l : List Char), l.length ≤ fuel →
      flattenPieces (tokenizeF fuel l) = l := by
  intro fuel
  induction fuel with
  | zero =>
    intro l h
    rw [List.eq_nil_of_length_eq_zero (Nat.le_zero.mp h)]
    simp [tokenizeF, flattenPieces]
  | succ f ih =>
    intro l h
    cases l with
    | nil => simp [tokenizeF, flattenPieces]
    | cons c rest =>
      have hlen : rest.length ≤ f := by
        simpa using Nat.le_of_succ_le_succ h
      by_cases hc : c = '['
      · subst hc
        cases htc : tryChord rest with
        | none =>
          simp only [tokenizeF, htc, if_pos rfl, if_true]
          rw [flattenPieces_cons, ih rest hlen]
          rfl
        | some bt =>
          obtain ⟨hrest, hgood⟩ := @tryChord_some rest bt.1 bt.2
            (by rw [htc])
          simp only [tokenizeF, htc, if_pos rfl, if_true]
          rw [flattenPieces_cons]
          have hlen2 : bt.2.length ≤ f := by
            have : rest.length = bt.1.length + (bt.2.length + 1) := by
              rw [hrest]; simp
            omega
          rw [ih bt.2 hlen2]
          simp only [renderPiece, hrest]
          simp
      · simp only [tokenizeF, if_neg hc]
        rw [flattenPieces_cons, ih rest hlen]
        rfl

/-- The scan re-renders to its input: every character is either non-chord text
or part of exactly one bracketed chord. -/
theorem flattenPieces_tokenize (l : List Char) : flattenPieces (tokenize l) = l :=
  flattenPieces_tokenizeF l.length l le_rfl

/-- Helper: every scan satisfies the `GoodPieces` invariant. -/
theorem goodPieces_tokenizeF :
    ∀ (fuel : Nat) (l : List Char), l.length ≤ fuel → GoodPieces (tokenizeF fuel l) := by
  intro fuel
  induction fuel with
  | zero =>
    intro l h
    rw [List.eq_nil_of_length_eq_zero (Nat.le_zero.mp h)]
    exact GoodPieces.nil
  | succ f ih =>
    intro l h
    cases l with
    | nil => exact GoodPieces.nil
    | cons c rest =>
      have hlen : rest.length ≤ f := by
        simpa using Nat.le_of_succ_le_succ h
      by_cases hc : c = '['
      · subst hc
        cases htc : tryChord rest with
        | none =>
          simp only [tokenizeF, htc, if_pos rfl]
          exact GoodPieces.text_lb
            (by rw [flattenPieces_tokenizeF f rest hlen]; exact htc) (ih rest hlen)
        | some bt =>
          obtain ⟨hrest, hgood⟩ := @tryChord_some rest bt.1 bt.2
            (by rw [htc])
          have hlen2 : bt.2.length ≤ f := by
            have : rest.length = bt.1.length + (bt.2.length + 1) := by
              rw [hrest]; simp
            omega
          simp only [tokenizeF, htc, if_pos rfl]
          exact GoodPieces.chord hgood.1 hgood.2.1 hgood.2.2 (ih bt.2 hlen2)
      · simp only [tokenizeF, if_neg hc]
        exact GoodPieces.text_other hc (ih rest hlen)

/-- The `CHORD_PATTERN` scan always produces a well-formed piece list. -/
theorem goodPieces_tokenize (l : List Char) : GoodPieces (tokenize l) :=
  goodPieces_tokenizeF l.length l le_rfl

/-- Helper: a piece list whose rendering has no `]` contains no chord piece,
so chord replacement leaves it unchanged. -/
theorem mapChords_eq_of_no_rbracket (f : List Char → List Char) :
    ∀ ps : List Piece, ']' ∉ flattenPieces ps → mapChords f ps = ps := by
  intro ps
  induction ps with
  | nil => intro _; rfl
  | cons p rest ih =>
    intro h
    rw [flattenPieces_cons] at h
    cases p with
    | text s =>
      show Piece.text s :: mapChords f rest = Piece.text s :: rest
      rw [ih (fun hm => h (by simp only [List.mem_append]; exact Or.inr hm))]
    | chord b =>
      exfalso
      exact h (by simp [renderPiece])

/-- Helper: `GoodPieces` is preserved by replacing every chord body with
another well-formed body. -/
theorem goodPieces_mapChords (f : List Char → List Char)
    (hf : ∀ b, goodBody b → goodBody (f b)) :
    ∀ {ps : List Piece}, GoodPieces ps → GoodPieces (mapChords f ps) := by
  intro ps hg
  induction hg with
  | nil => exact GoodPieces.nil
  | @text_other c rest hc _ ih =>
    exact GoodPieces.text_other hc ih
  | @text_lb rest hnone hgrest ih =>
    refine GoodPieces.text_lb ?_ ih
    cases hgrest with
    | nil => simp [mapChords, flattenPieces, tryChord]
    | @text_other c rest2 hc hg2 =>
      by_cases hcr : isRootLetter c
      · have hdw : (flattenPieces rest2).dropWhile (fun x => decide (x ≠ ']')) = [] := by
          rw [flattenPieces_cons] at hnone
          simp only [renderPiece, List.singleton_append] at hnone
          rw [show tryChord (c :: flattenPieces rest2) =
              (match (flattenPieces rest2).dropWhile (· ≠ ']') with
               | [] => none
               | _ :: tail =>
                 some (c :: (flattenPieces rest2).takeWhile (· ≠ ']'), tail)) from by
            simp [tryChord, hcr]] at hnone
          cases hd : (flattenPieces rest2).dropWhile (fun x => decide (x ≠ ']')) with
          | nil => rfl
          | cons y tl => rw [hd] at hnone; simp at hnone
        have hnr : ']' ∉ flattenPieces rest2 := by
          intro hm
          have := List.dropWhile_eq_nil_iff.mp hdw _ hm
          simp at this
        have hid : mapChords f rest2 = rest2 := mapChords_eq_of_no_rbracket f rest2 hnr
        show tryChord (flattenPieces (mapChords f (Piece.text [c] :: rest2))) = none
        rw [show mapChords f (Piece.text [c] :: rest2) =
            Piece.text [c] :: mapChords f rest2 from rfl, hid]
        exact hnone
      · show tryChord (flattenPieces (mapChords f (Piece.text [c] :: rest2))) = none
        rw [show mapChords f (Piece.text [c] :: rest2) =
            Piece.text [c] :: mapChords f rest2 from rfl, flattenPieces_cons]
        simp [renderPiece, tryChord, hcr]
    | @text_lb rest2 hnone2 hg2 =>
      show tryChord (flattenPieces (mapChords f (Piece.text ['['] :: rest2))) = none
      rw [show mapChords f (Piece.text ['['] :: rest2) =
          Piece.text ['['] :: mapChords f rest2 from rfl, flattenPieces_cons]
      simp [renderPiece, tryChord, show isRootLetter '[' = false from by decide]
    | @chord b rest2 hb1 hb2 hb3 hg2 =>
      show tryChord (flattenPieces (mapChords f (Piece.chord b :: rest2))) = none
      rw [show mapChords f (Piece.chord b :: rest2) =
          Piece.chord (f b) :: mapChords f rest2 from rfl, flattenPieces_cons]
      simp [renderPiece, tryChord, show isRootLetter '[' = false from by decide]
  | @chord b rest hne hroot hnb hgrest ih =>
    have hgb := hf b ⟨hne, hroot, hnb⟩
    exact GoodPieces.chord hgb.1 hgb.2.1 hgb.2.2 ih

/-- Helper: re-scanning the rendering of a well-formed piece list recovers it
exactly (with any sufficient fuel). -/
theorem tokenizeF_flatten_good :
    ∀ {ps : List Piece}, GoodPieces ps → ∀ (fuel : Nat),
      (flattenPieces ps).length ≤ fuel → tokenizeF fuel (flattenPieces ps) = ps := by
  intro ps hg
  induction hg with
  | nil =>
    intro fuel h
    cases fuel <;> simp [tokenizeF, flattenPieces]
  | @text_other c rest hc hgrest ih =>
    intro fuel h
    rw [flattenPieces_cons] at h ⊢
    simp only [renderPiece, List.singleton_append] at h ⊢
    cases fuel with
    | zero => simp at h
    | succ f =>
      simp only [tokenizeF, if_neg hc]
      rw [ih f (by simpa using Nat.le_of_succ_le_succ h)]
  | @text_lb rest hnone hgrest ih =>
    intro fuel h
    rw [flattenPieces_cons] at h ⊢
    simp only [renderPiece, List.singleton_append] at h ⊢
    cases fuel with
    | zero => simp at h
    | succ f =>
      simp only [tokenizeF, if_pos rfl, if_true, hnone]
      rw [ih f (by simpa using Nat.le_of_succ_le_succ h)]
  | @chord b rest hne hroot hnb hgrest ih =>
    intro fuel h
    rw [flattenPieces_cons] at h ⊢
    simp only [renderPiece] at h ⊢
    have hshape : ('[' :: (b ++ [']'])) ++ flattenPieces rest =
        '[' :: (b ++ ']' :: flattenPieces rest) := by simp
    rw [hshape] at h ⊢
    cases fuel with
    | zero => simp at h
    | succ f =>
      simp only [tokenizeF, if_pos rfl, if_true, tryChord_append ⟨hne, hroot, hnb⟩]
      have hlen2 : (flattenPieces rest).length ≤ f := by
        simp only [List.length_cons, List.length_append] at h
        omega
      rw [ih f hlen2]

/-- Re-scanning the rendering of a well-formed piece list recovers it. -/
theorem tokenize_flatten_good {ps : List Piece} (hg : GoodPieces ps) :
    tokenize (flattenPieces ps) = ps :=
  tokenizeF_flatten_good hg (flattenPieces ps).length le_rfl

/-- Helper: chord bodies commute with chord replacement. -/
theorem chordBodies_mapChords (f : List Char → List Char) :
    ∀ ps : List Piece, chordBodies (mapChords f ps) = (chordBodies ps).map f := by
  intro ps
  induction ps with
  | nil => rfl
  | cons p rest ih =>
    cases p with
    | text s =>
      show chordBodies (Piece.text s :: mapChords f rest) =
        (chordBodies (Piece.text s :: rest)).map f
      simp only [chordBodies, List.filterMap_cons] at ih ⊢
      exact ih
    | chord b =>
      show chordBodies (Piece.chord (f b) :: mapChords f rest) =
        (chordBodies (Piece.chord b :: rest)).map f
      simp only [chordBodies, List.filterMap_cons, List.map_cons] at ih ⊢
      rw [ih]

/-- Helper: every chord body of a well-formed piece list is well formed. -/
theorem goodBody_of_mem_chordBodies :
    ∀ {ps : List Piece}, GoodPieces ps → ∀ {b : List Char}, b ∈ chordBodies ps →
      goodBody b := by
  intro ps hg
  induction hg with
  | nil => intro b hb; simp [chordBodies] at hb
  | @text_other c rest hc hgrest ih =>
    intro b hb
    exact ih (by simpa [chordBodies, List.filterMap_cons] using hb)
  | @text_lb rest hnone hgrest ih =>
    intro b hb
    exact ih (by simpa [chordBodies, List.filterMap_cons] using hb)
  | @chord b0 rest hne hroot hnb hgrest ih =>
    intro b hb
    simp only [chordBodies, List.filterMap_cons] at hb
    rcases List.mem_cons.mp hb with rfl | hb2
    · exact ⟨hne, hroot, hnb⟩
    · exact ih hb2


/-- Helper: `hasEmptyBrackets` is the substring test for `[]`. -/
theorem hasEmptyBrackets_iff :
    ∀ l : List Char, hasEmptyBrackets l = true ↔ ['[', ']'] <:+: l := by
  intro l
  induction l with
  | nil =>
    constructor
    · intro h; simp [hasEmptyBrackets] at h
    · intro h
      have := List.sublist_nil.mp h.sublist
      simp at this
  | cons c rest ih =>
    simp only [hasEmptyBrackets, Bool.or_eq_true, Bool.and_eq_true, decide_eq_true_eq]
    constructor
    · rintro (⟨rfl, hh⟩ | h)
      · cases rest with
        | nil => simp at hh
        | cons c2 t =>
          simp only [List.head?_cons, Option.some.injEq] at hh
          subst hh
          exact ⟨[], t, by simp⟩
      · exact List.infix_cons (ih.mp h)
    · intro h
      rcases List.infix_cons_iff.mp h with hpre | hinf
      · rw [List.cons_prefix_cons] at hpre
        obtain ⟨rfl, hpre2⟩ := hpre
        refine Or.inl ⟨rfl, ?_⟩
        cases rest with
        | nil =>
          have := List.sublist_nil.mp hpre2.sublist
          simp at this
        | cons c2 t =>
          rw [List.cons_prefix_cons] at hpre2
          obtain ⟨rfl, _⟩ := hpre2
          rfl
      · exact Or.inr (ih.mpr hinf)

/-- Helper: the two warning kinds that can occur are distinct strings. -/
theorem mismatch_ne_empty (oc cc : Nat) :
    mismatchWarning oc cc ≠ emptyBracketsWarning := by
  intro h
  have h2 : (mismatchWarning oc cc).headD ' ' = 'M' := rfl
  rw [h] at h2
  exact absurd h2 (by decide)

/-- Helper: symmetric form of `mismatch_ne_empty`. -/
theorem empty_ne_mismatch (oc cc : Nat) :
    emptyBracketsWarning ≠ mismatchWarning oc cc :=
  (mismatch_ne_empty oc cc).symm

/-- C2 counterexample: the claim asserts `validate("[X]a")` yields an
invalid-chord warning naming `X`, but `CHORD_PATTERN` only matches brackets
whose contents start with A-G, so `[X]` is no match at all and validation
reports nothing. -/
theorem c2_validate_chordpro_cex : validate_chordpro ("[X]a".data) = (true, []) := by
  decide

/-- C2 (amended): `validate_chordpro` never throws; the bracket-count warning
is present iff the counts differ; the empty-bracket warning is present (at
most once) iff `[]` occurs as a substring; `is_valid` holds iff there are no
warnings.  Amendment: every matched bracket's contents starts with a letter
A-G by construction of the chord pattern, so the invalid-chord warning never
fires and only the two lexical warnings are possible. -/
theorem c2_validate_chordpro :
    ∀ content : List Char,
      ((validate_chordpro content).1 = true ↔ (validate_chordpro content).2 = []) ∧
      (mismatchWarning (content.count '[') (content.count ']') ∈
          (validate_chordpro content).2 ↔
        content.count '[' ≠ content.count ']') ∧
      (emptyBracketsWarning ∈ (validate_chordpro content).2 ↔ ['[', ']'] <:+: content) ∧
      (validate_chordpro content).2.count emptyBracketsWarning ≤ 1 ∧
      (∀ b ∈ chordBodies (tokenize content), startsWithChordLetter b = true) ∧
      (∀ w ∈ (validate_chordpro content).2,
        w = mismatchWarning (content.count '[') (content.count ']') ∨
          w = emptyBracketsWarning) ∧
      validate_chordpro ("a[]b".data) = (false, [emptyBracketsWarning]) := by
  intro content
  have hstart : ∀ b ∈ chordBodies (tokenize content), startsWithChordLetter b = true := by
    intro b hb
    have hg := goodBody_of_mem_chordBodies (goodPieces_tokenize content) hb
    cases b with
    | nil => exact absurd rfl hg.1
    | cons c t => simpa [startsWithChordLetter] using hg.2.1
  have hw3 : (chordBodies (tokenize content)).filterMap
      (fun c => if startsWithChordLetter c then none
                else some (invalidChordWarning c)) = [] := by
    rw [List.filterMap_eq_nil_iff]
    intro b hb
    simp [hstart b hb]
  have hval2 : (validate_chordpro content).2 =
      (if content.count '[' ≠ content.count ']' then
        [mismatchWarning (content.count '[') (content.count ']')] else []) ++
      (if hasEmptyBrackets content then [emptyBracketsWarning] else []) := by
    simp only [validate_chordpro, hw3]
    simp
  have hval1 : (validate_chordpro content).1 = (validate_chordpro content).2.isEmpty :=
    rfl
  refine ⟨?_, ?_, ?_, ?_, hstart, ?_, by decide⟩
  · rw [hval1]
    exact List.isEmpty_iff
  · rw [hval2]
    by_cases h1 : content.count '[' = content.count ']' <;>
      simp [h1, mismatch_ne_empty]
  · rw [hval2, ← hasEmptyBrackets_iff]
    by_cases h2 : hasEmptyBrackets content = true <;>
      simp [h2, empty_ne_mismatch]
  · rw [hval2]
    by_cases h1 : content.count '[' = content.count ']' <;>
      by_cases h2 : hasEmptyBrackets content = true <;>
        simp [h1, h2, List.count_cons, empty_ne_mismatch]
  · rw [hval2]
    intro w hw
    rcases List.mem_append.mp hw with hw1 | hw2
    · by_cases h1 : content.count '[' = content.count ']'
      · simp [h1] at hw1
      · simp [h1] at hw1
        exact Or.inl hw1
    · by_cases h2 : hasEmptyBrackets content = true
      · simp [h2] at hw2
        exact Or.inr hw2
      · simp [h2] at hw2

/-- Witness for C2: the empty-bracket membership direction applied at
`"a[]b"`. -/
theorem c2_validate_chordpro_witness :
    emptyBracketsWarning ∈ (validate_chordpro ("a[]b".data)).2 :=
  (c2_validate_chordpro ("a[]b".data)).2.2.1.mpr ⟨("a".data), ("b".data), by decide⟩


/-- Helper: appending text to the last segment appends it to the
reconstruction. -/
theorem appendToLast_recon :
    ∀ (segments : List Segment) (s : List Char), segments ≠ [] →
      reconSegments (appendToLast segments s) = reconSegments segments ++ s := by
  intro segments
  induction segments with
  | nil => intro s h; cases h rfl
  | cons x rest ih =>
    intro s _
    cases rest with
    | nil =>
      obtain ⟨c, t⟩ := x
      cases c <;> simp [appendToLast, reconSegments]
    | cons y rest2 =>
      rw [show appendToLast (x :: y :: rest2) s =
          x :: appendToLast (y :: rest2) s from rfl]
      have hc : ∀ (z : Segment) (l : List Segment), reconSegments (z :: l) =
          (match z.1 with
           | some c => '[' :: (c ++ [']']) ++ z.2
           | none => z.2) ++ reconSegments l := fun z l => by simp [reconSegments]
      rw [hc x (appendToLast (y :: rest2) s), hc x (y :: rest2),
        ih s (by simp), List.append_assoc]

/-- Helper: reconstruction distributes over segment-list append. -/
theorem reconSegments_append (l1 l2 : List Segment) :
    reconSegments (l1 ++ l2) = reconSegments l1 ++ reconSegments l2 := by
  simp [reconSegments]

/-- Helper: one step of the segment loop extends the reconstruction by the
piece's rendering. -/
theorem segStep_recon (acc : List Segment) (p : Piece) :
    reconSegments (segStep acc p) = reconSegments acc ++ renderPiece p := by
  cases p with
  | text s =>
    by_cases h : acc = []
    · subst h
      by_cases hs : s = [] <;> simp [segStep, hs, reconSegments, renderPiece]
    · simp only [segStep, renderPiece, if_neg h]
      exact appendToLast_recon acc s h
  | chord c =>
    simp [segStep, reconSegments_append, reconSegments, renderPiece]

/-- Helper: folding the segment loop reconstructs the rendered pieces. -/
theorem foldl_segStep_recon :
    ∀ (ps : List Piece) (acc : List Segment),
      reconSegments (ps.foldl segStep acc) = reconSegments acc ++ flattenPieces ps := by
  intro ps
  induction ps with
  | nil => intro acc; simp [flattenPieces]
  | cons p rest ih =>
    intro acc
    rw [List.foldl_cons, ih, segStep_recon, flattenPieces_cons, List.append_assoc]

/-- C6 counterexample: the parser rstrips each line first, so the document
`"a "` parses to a single chord-less segment `"a"`, whose reconstruction is
not the source line `"a "`. -/
theorem c6_segment_reconstruction_cex :
    (parse_chordpro ("a ".data)).lines = [[(none, ("a".data))]] ∧
    reconSegments [(none, ("a".data))] = ("a".data) ∧
    ("a".data) ≠ ("a ".data) := by
  decide

/-- C6 (amended): for every non-directive source line, concatenating the
segment lyrics with each original bracketed chord re-inserted at its position
reconstructs the line after trailing-whitespace removal — the parser rstrips
every line before segmenting, so trailing whitespace of the raw source line
is not reconstructed. -/
theorem c6_segment_reconstruction :
    ∀ rawline : List Char, directiveSearch (rstrip rawline) = none →
      reconSegments (segmentsOfLine (rstrip rawline)) = rstrip rawline := by
  intro rawline _
  rw [segmentsOfLine, foldl_segStep_recon, flattenPieces_tokenize]
  simp [reconSegments]

/-- Witness for C6: reconstruction of a concrete non-directive line. -/
theorem c6_segment_reconstruction_witness :
    reconSegments (segmentsOfLine (rstrip ("a[G]b [D]c".data))) =
      rstrip ("a[G]b [D]c".data) :=
  c6_segment_reconstruction ("a[G]b [D]c".data) (by decide)


/-- Helper: a directive match somewhere in a suffix means the search over the
whole line succeeds. -/
theorem directiveSearch_append_none :
    ∀ (pre l : List Char), directiveSearch (pre ++ l) = none →
      directiveSearch l = none := by
  intro pre
  induction pre with
  | nil => intro l h; simpa using h
  | cons c pre2 ih =>
    intro l h
    rw [List.cons_append] at h
    rw [show directiveSearch (c :: (pre2 ++ l)) =
        (match dirMatchAt (c :: (pre2 ++ l)) with
         | some m => some m
         | none => directiveSearch (pre2 ++ l)) from rfl] at h
    cases hdm : dirMatchAt (c :: (pre2 ++ l)) with
    | some m => rw [hdm] at h; simp at h
    | none => rw [hdm] at h; exact ih l h

/-- Helper: `dirMatchAt` matches a literal `{name}` at the head. -/
theorem dirMatchAt_bare (name post : List Char) (hne : name ≠ [])
    (hw : ∀ c ∈ name, isWordChar c = true) :
    dirMatchAt (lbrace :: (name ++ rbrace :: post)) = some (name, none) := by
  have htw : (name ++ rbrace :: post).takeWhile isWordChar = name := by
    rw [takeWhile_all_append name (rbrace :: post) hw,
        List.takeWhile_cons_of_neg (by decide)]
    simp
  have hdw : (name ++ rbrace :: post).dropWhile isWordChar = rbrace :: post := by
    rw [dropWhile_all_append name (rbrace :: post) hw,
        List.dropWhile_cons_of_neg (by decide)]
  have key : dirMatchAt (lbrace :: (name ++ rbrace :: post)) =
      (if (name ++ rbrace :: post).takeWhile isWordChar = [] then none
       else
         match (name ++ rbrace :: post).dropWhile isWordChar with
         | ':' :: r2 =>
           if rbrace ∈ r2 then
             some ((name ++ rbrace :: post).takeWhile isWordChar,
               some ((r2.dropWhile isPySpace).takeWhile (· ≠ rbrace)))
           else none
         | c2 :: _ =>
           if c2 = rbrace then
             some ((name ++ rbrace :: post).takeWhile isWordChar, none)
           else none
         | [] => none) := rfl
  rw [key, htw, hdw, if_neg hne]
  rfl

/-- Helper: `dirMatchAt` matches a literal `{name: value}` at the head. -/
theorem dirMatchAt_value (name value post : List Char) (hne : name ≠ [])
    (hw : ∀ c ∈ name, isWordChar c = true) :
    dirMatchAt (lbrace :: (name ++ ':' :: (value ++ rbrace :: post))) =
      some (name,
        some (((value ++ rbrace :: post).dropWhile isPySpace).takeWhile
          (· ≠ rbrace))) := by
  have htw : (name ++ ':' :: (value ++ rbrace :: post)).takeWhile isWordChar = name := by
    rw [takeWhile_all_append name _ hw, List.takeWhile_cons_of_neg (by decide)]
    simp
  have hdw : (name ++ ':' :: (value ++ rbrace :: post)).dropWhile isWordChar =
      ':' :: (value ++ rbrace :: post) := by
    rw [dropWhile_all_append name _ hw, List.dropWhile_cons_of_neg (by decide)]
  have hmem : rbrace ∈ value ++ rbrace :: post := by simp
  have key : dirMatchAt (lbrace :: (name ++ ':' :: (value ++ rbrace :: post))) =
      (if (name ++ ':' :: (value ++ rbrace :: post)).takeWhile isWordChar = [] then none
       else
         match (name ++ ':' :: (value ++ rbrace :: post)).dropWhile isWordChar with
         | ':' :: r2 =>
           if rbrace ∈ r2 then
             some ((name ++ ':' :: (value ++ rbrace :: post)).takeWhile isWordChar,
               some ((r2.dropWhile isPySpace).takeWhile (· ≠ rbrace)))
           else none
         | c2 :: _ =>
           if c2 = rbrace then
             some ((name ++ ':' :: (value ++ rbrace :: post)).takeWhile isWordChar, none)
           else none
         | [] => none) := rfl
  rw [key, htw, hdw, if_neg hne]
  rw [show (match (':' :: (value ++ rbrace :: post) : List Char) with
      | ':' :: r2 =>
        if rbrace ∈ r2 then
          some (name, some ((r2.dropWhile isPySpace).takeWhile (· ≠ rbrace)))
        else none
      | c2 :: _ => if c2 = rbrace then some (name, none) else none
      | [] => none) =
      (if rbrace ∈ value ++ rbrace :: post then
        some (name,
          some (((value ++ rbrace :: post).dropWhile isPySpace).takeWhile (· ≠ rbrace)))
      else none) from rfl, if_pos hmem]

/-- C10: any line with a directive substring — `{name}` or `{name: value}`,
recognized metadata name or not, chords elsewhere on the line or not — is
consumed whole: the parser appends no parsed line and none of its bracketed
chords to `raw_chords`. -/
theorem c10_directive_line_consumed :
    (∀ (st : ParsedChordPro) (rawline : List Char),
      directiveSearch (rstrip rawline) ≠ none →
      (processLine st rawline).lines = st.lines ∧
      (processLine st rawline).raw_chords = st.raw_chords) ∧
    (∀ pre name post : List Char, name ≠ [] → (∀ c ∈ name, isWordChar c = true) →
      directiveSearch (pre ++ lbrace :: (name ++ rbrace :: post)) ≠ none) ∧
    (∀ pre name value post : List Char, name ≠ [] →
      (∀ c ∈ name, isWordChar c = true) →
      directiveSearch (pre ++ lbrace :: (name ++ ':' :: (value ++ rbrace :: post))) ≠
        none) := by
  refine ⟨?_, ?_, ?_⟩
  · intro st rawline h
    cases hds : directiveSearch (rstrip rawline) with
    | none => exact absurd hds h
    | some m =>
      constructor <;>
        · simp only [processLine, hds]
          repeat' split
          all_goals rfl
  · intro pre name post hne hw hnone
    have h2 := directiveSearch_append_none pre _ hnone
    rw [show directiveSearch (lbrace :: (name ++ rbrace :: post)) =
        (match dirMatchAt (lbrace :: (name ++ rbrace :: post)) with
         | some m => some m
         | none => directiveSearch (name ++ rbrace :: post)) from rfl,
      dirMatchAt_bare name post hne hw] at h2
    simp at h2
  · intro pre name value post hne hw hnone
    have h2 := directiveSearch_append_none pre _ hnone
    rw [show directiveSearch (lbrace :: (name ++ ':' :: (value ++ rbrace :: post))) =
        (match dirMatchAt (lbrace :: (name ++ ':' :: (value ++ rbrace :: post))) with
         | some m => some m
         | none => directiveSearch (name ++ ':' :: (value ++ rbrace :: post))) from rfl,
      dirMatchAt_value name value post hne hw] at h2
    simp at h2

/-- Witness for C10: a line holding both chords and an unrecognized directive
contributes nothing to `lines` or `raw_chords`. -/
theorem c10_directive_line_consumed_witness :
    (processLine ⟨none, none, none, none, [], []⟩ ("[G]a \x7bfoo\x7d [D]b".data)).lines =
        [] ∧
      (processLine ⟨none, none, none, none, [], []⟩
        ("[G]a \x7bfoo\x7d [D]b".data)).raw_chords = [] ∧
      directiveSearch (("x".data) ++ lbrace :: (("k".data) ++ rbrace :: ("y".data))) ≠
        none :=
  ⟨(c10_directive_line_consumed.1 ⟨none, none, none, none, [], []⟩
      ("[G]a \x7bfoo\x7d [D]b".data) (by decide)).1,
   (c10_directive_line_consumed.1 ⟨none, none, none, none, [], []⟩
      ("[G]a \x7bfoo\x7d [D]b".data) (by decide)).2,
   c10_directive_line_consumed.2.1 ("x".data) ("k".data) ("y".data) (by decide)
      (by decide)⟩


/-- C3 counterexample: on input `"xy"` (not starting with A-G) the parser
returns the whole string as the root with empty quality, not the claimed
first-character-uppercased root `"X"` with quality `"y"`. -/
theorem c3_parse_chord_cex :
    (parse_chord ("xy".data)).root = ("xy".data) ∧
    (parse_chord ("xy".data)).quality = [] ∧
    ("xy".data) ≠ ("X".data) := by
  decide

/-- C3 (amended): for every input whose stripped chord part (before any `/`)
does not start with a letter A-G, `parse_chord` still returns a ChordToken
without failing, whose root is that entire chord part verbatim (not
uppercased) with an empty quality, and whose bass is the part after the
first `/` when present. -/
theorem c3_parse_chord_fallback :
    ∀ chord_str : List Char,
      startsWithChordLetter ((slashSplit (pyStrip chord_str)).1) = false →
      parse_chord chord_str =
        ⟨(slashSplit (pyStrip chord_str)).1, [], (slashSplit (pyStrip chord_str)).2⟩ := by
  intro s h
  have hr : rootSplit ((slashSplit (pyStrip s)).1) = none := by
    cases hb : (slashSplit (pyStrip s)).1 with
    | nil => rfl
    | cons c t =>
      rw [hb] at h
      simp only [startsWithChordLetter] at h
      simp [rootSplit, h]
  simp only [parse_chord, hr]

/-- Witness for C3: the fallback applied at `"xy"`. -/
theorem c3_parse_chord_fallback_witness :
    parse_chord ("xy".data) = ⟨("xy".data), [], none⟩ :=
  (c3_parse_chord_fallback ("xy".data) (by decide)).trans (by decide)

/-- Helper: membership in `firstOccur`. -/
theorem firstOccur_mem_aux :
    ∀ (l : List (List Char)) (acc : List (List Char)) (x : List Char),
      x ∈ l.foldl (fun acc r => if r ∈ acc then acc else acc ++ [r]) acc ↔
        x ∈ acc ∨ x ∈ l := by
  intro l
  induction l with
  | nil => intro acc x; simp
  | cons r l ih =>
    intro acc x
    rw [List.foldl_cons, ih]
    by_cases hr : r ∈ acc
    · simp only [if_pos hr, List.mem_cons]
      constructor
      · rintro (h | h)
        · exact Or.inl h
        · exact Or.inr (Or.inr h)
      · rintro (h | rfl | h)
        · exact Or.inl h
        · exact Or.inl hr
        · exact Or.inr h
    · simp only [if_neg hr, List.mem_append, List.mem_singleton, List.mem_cons]
      tauto

/-- Membership in `firstOccur`. -/
theorem firstOccur_mem (l : List (List Char)) (x : List Char) :
    x ∈ firstOccur l ↔ x ∈ l := by
  rw [firstOccur, firstOccur_mem_aux]
  simp

/-- Helper: `firstOccur` never repeats an element. -/
theorem firstOccur_nodup_aux :
    ∀ (l : List (List Char)) (acc : List (List Char)), acc.Nodup →
      (l.foldl (fun acc r => if r ∈ acc then acc else acc ++ [r]) acc).Nodup := by
  intro l
  induction l with
  | nil => intro acc h; simpa using h
  | cons r l ih =>
    intro acc h
    rw [List.foldl_cons]
    by_cases hr : r ∈ acc
    · rw [if_pos hr]; exact ih acc h
    · rw [if_neg hr]
      exact ih _ (by simp [List.nodup_append, h, hr])

/-- `firstOccur` never repeats an element. -/
theorem firstOccur_nodup (l : List (List Char)) : (firstOccur l).Nodup :=
  firstOccur_nodup_aux l [] List.nodup_nil

/-- Helper: `firstOccur` over an appended element. -/
theorem firstOccur_append_singleton (P : List (List Char)) (r : List Char) :
    firstOccur (P ++ [r]) =
      (if r ∈ firstOccur P then firstOccur P else firstOccur P ++ [r]) := by
  rw [firstOccur, List.foldl_append]
  rfl

/-- Helper: the accumulator is a prefix of the `firstOccur` fold. -/
theorem firstOccur_acc_prefix :
    ∀ (l : List (List Char)) (acc : List (List Char)),
      ∃ suf, l.foldl (fun acc r => if r ∈ acc then acc else acc ++ [r]) acc =
        acc ++ suf := by
  intro l
  induction l with
  | nil => intro acc; exact ⟨[], by simp⟩
  | cons r l ih =>
    intro acc
    rw [List.foldl_cons]
    by_cases hr : r ∈ acc
    · rw [if_pos hr]; exact ih acc
    · rw [if_neg hr]
      obtain ⟨suf, hsuf⟩ := ih (acc ++ [r])
      exact ⟨[r] ++ suf, by rw [hsuf, List.append_assoc]⟩

/-- Helper: `firstOccur` of a cons starts with its head. -/
theorem firstOccur_cons_shape (a : List Char) (l : List (List Char)) :
    ∃ suf, firstOccur (a :: l) = a :: suf := by
  have h1 : firstOccur (a :: l) =
      l.foldl (fun acc r => if r ∈ acc then acc else acc ++ [r]) [a] := rfl
  obtain ⟨suf, hsuf⟩ := firstOccur_acc_prefix l [a]
  exact ⟨suf, by rw [h1, hsuf]; rfl⟩

/-- Helper: bumping a key present in a keyed map increments just that key. -/
theorem bumpRoot_map_mem (g : List Char → Nat) (k : Nat) :
    ∀ (K : List (List Char)) (r : List Char), K.Nodup → r ∈ K →
      bumpRoot (K.map fun x => (x, g x)) r k =
        K.map fun x => (x, if x = r then g x + k else g x) := by
  intro K
  induction K with
  | nil => intro r _ hr; simp at hr
  | cons a K2 ih =>
    intro r hnd hr
    rw [List.nodup_cons] at hnd
    simp only [List.map_cons, bumpRoot]
    by_cases ha : a = r
    · rw [if_pos ha]
      subst ha
      have htail : K2.map (fun x => (x, g x)) =
          K2.map (fun x => (x, if x = a then g x + k else g x)) :=
        List.map_congr_left (fun x hx => by
          rw [if_neg (fun he : x = a => hnd.1 (he ▸ hx))])
      rw [htail]
      congr 1
      simp
    · have hr2 : r ∈ K2 := by
        rcases List.mem_cons.mp hr with h | h
        · exact absurd h.symm ha
        · exact h
      rw [if_neg ha, if_neg ha, ih r hnd.2 hr2]

/-- Helper: bumping an absent key appends it. -/
theorem bumpRoot_map_not_mem (g : List Char → Nat) (k : Nat) :
    ∀ (K : List (List Char)) (r : List Char), r ∉ K →
      bumpRoot (K.map fun x => (x, g x)) r k =
        (K.map fun x => (x, g x)) ++ [(r, k)] := by
  intro K
  induction K with
  | nil => intro r _; rfl
  | cons a K2 ih =>
    intro r hr
    have ha : ¬ a = r := fun he => hr (by simp [he])
    simp only [List.map_cons, bumpRoot, if_neg ha, List.cons_append]
    rw [ih r (fun hm => hr (by simp [hm]))]

/-- Helper: the counting fold of `detect_key` builds exactly the
insertion-ordered tally of root occurrences. -/
theorem detect_counts_eq (roots : List (List Char)) :
    roots.foldl (fun m r => bumpRoot m r 1) [] =
      (firstOccur roots).map fun r => (r, roots.count r) := by
  induction roots using List.reverseRecOn with
  | nil => rfl
  | append_singleton P r ih =>
    rw [List.foldl_append, ih, List.foldl_cons, List.foldl_nil,
      firstOccur_append_singleton]
    by_cases hr : r ∈ firstOccur P
    · rw [if_pos hr,
        bumpRoot_map_mem (fun x => P.count x) 1 (firstOccur P) r (firstOccur_nodup P) hr]
      apply List.map_congr_left
      intro x hx
      rw [List.count_append]
      by_cases hxr : x = r
      · subst hxr; simp
      · simp [List.count_cons, hxr, fun h : r = x => hxr h.symm]
    · rw [if_neg hr,
        bumpRoot_map_not_mem (fun x => P.count x) 1 (firstOccur P) r hr,
        List.map_append]
      congr 1
      · apply List.map_congr_left
        intro x hx
        rw [List.count_append]
        have hxr : ¬ r = x := fun he => hr (he ▸ hx)
        simp [List.count_cons, hxr]
      · have hcount : P.count r = 0 := by
          rw [List.count_eq_zero]
          exact fun hm => hr ((firstOccur_mem P r).mpr hm)
        simp [List.count_append, hcount, List.count_cons]

/-- Helper: `find?` only depends on predicate values on the list. -/
theorem find?_congr_mem :
    ∀ (l : List (List Char)) (p q : List Char → Bool),
      (∀ x ∈ l, p x = q x) → l.find? p = l.find? q := by
  intro l
  induction l with
  | nil => intro p q _; rfl
  | cons a l ih =>
    intro p q h
    cases hp : p a with
    | true =>
      rw [List.find?_cons_of_pos l hp,
        List.find?_cons_of_pos l (by rw [← h a (by simp), hp])]
    | false =>
      rw [List.find?_cons_of_neg l (by simp [hp]),
        List.find?_cons_of_neg l (by rw [← h a (by simp), hp]; simp),
        ih p q (fun x hx => h x (by simp [hx]))]

/-- Helper: `maxKeyAux` (Python `max(..., key=...)`) returns the first element
attaining the maximum. -/
theorem maxKeyAux_eq_find (t : List Char → Nat) :
    ∀ (K : List (List Char)) (b : List Char),
      ((b :: K).find? fun r => decide (∀ s ∈ b :: K, t s ≤ t r)) =
        some (maxKeyAux (b, t b) (K.map fun r => (r, t r))) := by
  intro K
  induction K with
  | nil =>
    intro b
    rw [@List.find?_cons_of_pos (List Char)
      (fun r => decide (∀ s ∈ [b], t s ≤ t r)) b [] (by simp)]
    rfl
  | cons r K2 ih =>
    intro b
    by_cases hrb : t b < t r
    · have hb : ¬ (fun x => decide (∀ s ∈ b :: r :: K2, t s ≤ t x)) b = true := by
        simp only [decide_eq_true_eq]
        intro hall
        exact absurd (hall r (by simp)) (by omega)
      rw [@List.find?_cons_of_neg (List Char)
        (fun x => decide (∀ s ∈ b :: r :: K2, t s ≤ t x)) b (r :: K2) hb]
      have hcong := find?_congr_mem (r :: K2)
        (fun x => decide (∀ s ∈ b :: r :: K2, t s ≤ t x))
        (fun x => decide (∀ s ∈ r :: K2, t s ≤ t x))
        (by
          intro x hx
          simp only [decide_eq_decide]
          constructor
          · intro hall s hs
            exact hall s (by simp [List.mem_cons.mp hs])
          · intro hall s hs
            rcases List.mem_cons.mp hs with rfl | hs2
            · have := hall r (by simp)
              omega
            · exact hall s hs2)
      rw [hcong, ih r]
      have hstep : maxKeyAux (b, t b) ((r :: K2).map fun x => (x, t x)) =
          maxKeyAux (r, t r) (K2.map fun x => (x, t x)) := by
        simp only [List.map_cons, maxKeyAux, if_pos hrb]
      rw [hstep]
    · have hrb2 : t r ≤ t b := by omega
      have hstep : maxKeyAux (b, t b) ((r :: K2).map fun x => (x, t x)) =
          maxKeyAux (b, t b) (K2.map fun x => (x, t x)) := by
        simp only [List.map_cons, maxKeyAux, if_neg hrb]
      rw [hstep, ← ih b]
      by_cases hpb : ∀ s ∈ b :: r :: K2, t s ≤ t b
      · rw [@List.find?_cons_of_pos (List Char)
            (fun x => decide (∀ s ∈ b :: r :: K2, t s ≤ t x)) b (r :: K2)
            (by simpa using hpb),
          @List.find?_cons_of_pos (List Char)
            (fun x => decide (∀ s ∈ b :: K2, t s ≤ t x)) b K2
            (by
              simp only [decide_eq_true_eq]
              intro s hs
              rcases List.mem_cons.mp hs with rfl | h
              · exact hpb s (by simp)
              · exact hpb s (by simp [h]))]
      · have hpb2 : ¬ ∀ s ∈ b :: K2, t s ≤ t b := by
          intro hall
          apply hpb
          intro s hs
          rcases List.mem_cons.mp hs with rfl | hs2
          · exact hall s (by simp)
          · rcases List.mem_cons.mp hs2 with rfl | hs3
            · exact hrb2
            · exact hall s (by simp [hs3])
        have hpr : ¬ ∀ s ∈ b :: r :: K2, t s ≤ t r := by
          intro hall
          apply hpb
          intro s hs
          have h1 := hall s hs
          have h2 := hall b (by simp)
          omega
        rw [@List.find?_cons_of_neg (List Char)
            (fun x => decide (∀ s ∈ b :: r :: K2, t s ≤ t x)) b (r :: K2)
            (by simpa using hpb),
          @List.find?_cons_of_neg (List Char)
            (fun x => decide (∀ s ∈ b :: r :: K2, t s ≤ t x)) r K2
            (by simpa using hpr),
          @List.find?_cons_of_neg (List Char)
            (fun x => decide (∀ s ∈ b :: K2, t s ≤ t x)) b K2
            (by simpa using hpb2)]
        apply find?_congr_mem
        intro x hx
        simp only [decide_eq_decide]
        constructor
        · intro hall s hs
          rcases List.mem_cons.mp hs with rfl | h
          · exact hall s (by simp)
          · exact hall s (by simp [h])
        · intro hall s hs
          rcases List.mem_cons.mp hs with rfl | hs2
          · exact hall s (by simp)
          · rcases List.mem_cons.mp hs2 with rfl | hs3
            · have := hall b (by simp)
              omega
            · exact hall s (by simp [hs3])


/-- Helper: the chord-tally branch of `detect_key` returns the first root (in
first-occurrence order) attaining the maximal total, where the first chord's
root gets two bonus points. -/
theorem detectFromChords_eq_find (chords : List (List Char)) (hne : chords ≠ []) :
    detectFromChords chords =
      (firstOccur (chordRoots chords)).find? fun r =>
        decide (∀ s ∈ firstOccur (chordRoots chords),
          rootTotals (chordRoots chords) s ≤ rootTotals (chordRoots chords) r) := by
  obtain ⟨c0, ch, rfl⟩ : ∃ c0 ch, chords = c0 :: ch := by
    cases chords with
    | nil => exact absurd rfl hne
    | cons a l => exact ⟨a, l, rfl⟩
  have hroots_cons : chordRoots (c0 :: ch) = (parse_chord c0).root :: chordRoots ch :=
    rfl
  have hfold : (c0 :: ch).foldl (fun m c => bumpRoot m ((parse_chord c).root) 1) [] =
      (chordRoots (c0 :: ch)).foldl (fun m r => bumpRoot m r 1) [] := by
    simp [chordRoots, List.foldl_map]
  have hh : (chordRoots (c0 :: ch)).head? = some ((parse_chord c0).root) := rfl
  have hr0mem : (parse_chord c0).root ∈ firstOccur (chordRoots (c0 :: ch)) := by
    rw [firstOccur_mem, hroots_cons]
    simp
  have hbump := bumpRoot_map_mem (fun x => (chordRoots (c0 :: ch)).count x) 2
    (firstOccur (chordRoots (c0 :: ch))) ((parse_chord c0).root)
    (firstOccur_nodup (chordRoots (c0 :: ch))) hr0mem
  have htot : (firstOccur (chordRoots (c0 :: ch))).map
      (fun x => (x, if x = (parse_chord c0).root then
        (chordRoots (c0 :: ch)).count x + 2 else (chordRoots (c0 :: ch)).count x)) =
      (firstOccur (chordRoots (c0 :: ch))).map
        (fun x => (x, rootTotals (chordRoots (c0 :: ch)) x)) := by
    apply List.map_congr_left
    intro x _
    rw [rootTotals, hh]
    by_cases hxr : x = (parse_chord c0).root
    · subst hxr
      simp
    · have hxr2 : ¬ (parse_chord c0).root = x := fun h => hxr h.symm
      simp [hxr, hxr2]
  obtain ⟨K1, hK1⟩ := firstOccur_cons_shape ((parse_chord c0).root) (chordRoots ch)
  rw [← hroots_cons] at hK1
  have hdetect : detectFromChords (c0 :: ch) =
      (match bumpRoot
          ((c0 :: ch).foldl (fun m c => bumpRoot m ((parse_chord c).root) 1) [])
          ((parse_chord c0).root) 2 with
       | [] => none
       | b :: rest => some (maxKeyAux b rest)) := rfl
  rw [hdetect, hfold, detect_counts_eq, hbump, htot, hK1, List.map_cons]
  exact (maxKeyAux_eq_find (rootTotals (chordRoots (c0 :: ch))) K1
    ((parse_chord c0).root)).symm

/-- C7: `detect_key` returns a nonempty metadata key unconditionally; with no
chords and no (nonempty) metadata key it returns none; otherwise it tallies
`raw_chords` by parsed root, gives the first chord's root two bonus points,
and returns the first root (in first-occurrence order, the stable first-max
tie-break) attaining the maximal total. -/
theorem c7_detect_key :
    (∀ (content v : List Char),
      (parse_chordpro content).key = some v → v ≠ [] →
      detect_key content = some v) ∧
    (∀ content : List Char,
      ((parse_chordpro content).key = none ∨ (parse_chordpro content).key = some []) →
      (parse_chordpro content).raw_chords = [] → detect_key content = none) ∧
    (∀ content : List Char,
      ((parse_chordpro content).key = none ∨ (parse_chordpro content).key = some []) →
      (parse_chordpro content).raw_chords ≠ [] →
      detect_key content =
        (firstOccur (chordRoots (parse_chordpro content).raw_chords)).find? fun r =>
          decide (∀ s ∈ firstOccur (chordRoots (parse_chordpro content).raw_chords),
            rootTotals (chordRoots (parse_chordpro content).raw_chords) s ≤
              rootTotals (chordRoots (parse_chordpro content).raw_chords) r)) := by
  refine ⟨?_, ?_, ?_⟩
  · intro content v hk hv
    simp [detect_key, hk, hv]
  · intro content hk hc
    rcases hk with hk | hk <;> simp [detect_key, hk, hc, detectFromChords]
  · intro content hk hne
    have hd : detect_key content = detectFromChords (parse_chordpro content).raw_chords := by
      rcases hk with hk | hk <;> simp [detect_key, hk]
    rw [hd]
    exact detectFromChords_eq_find _ hne

/-- Witness for C7: all three branches at concrete documents. -/
theorem c7_detect_key_witness :
    detect_key ("\x7bkey: G\x7d\n[C]a".data) = some ("G".data) ∧
    detect_key ("x".data) = none ∧
    detect_key ("[G]a [C]b [C]c".data) =
      (firstOccur (chordRoots (parse_chordpro ("[G]a [C]b [C]c".data)).raw_chords)).find?
        (fun r =>
          decide (∀ s ∈ firstOccur
              (chordRoots (parse_chordpro ("[G]a [C]b [C]c".data)).raw_chords),
            rootTotals (chordRoots (parse_chordpro ("[G]a [C]b [C]c".data)).raw_chords)
                s ≤
              rootTotals (chordRoots (parse_chordpro ("[G]a [C]b [C]c".data)).raw_chords)
                r)) :=
  ⟨c7_detect_key.1 ("\x7bkey: G\x7d\n[C]a".data) ("G".data) (by decide) (by decide),
   c7_detect_key.2.1 ("x".data) (Or.inl (by decide)) (by decide),
   c7_detect_key.2.2 ("[G]a [C]b [C]c".data) (Or.inl (by decide)) (by decide)⟩


/-- Helper: `rstrip` keeps a non-whitespace head. -/
theorem rstrip_cons_not_space {c : Char} (bs : List Char) (h : isPySpace c = false) :
    rstrip (c :: bs) = c :: rstrip bs := by
  rw [show rstrip (c :: bs) =
      (match rstrip bs with
       | [] => if isPySpace c then [] else [c]
       | r => c :: r) from rfl]
  cases hr : rstrip bs with
  | nil => simp [h]
  | cons y r2 => rfl

/-- Helper: `rstrip` keeps only characters of its input. -/
theorem mem_rstrip {x : Char} : ∀ {l : List Char}, x ∈ rstrip l → x ∈ l := by
  intro l
  induction l with
  | nil => intro h; simp [rstrip] at h
  | cons c bs ih =>
    intro h
    rw [show rstrip (c :: bs) =
        (match rstrip bs with
         | [] => if isPySpace c then [] else [c]
         | r => c :: r) from rfl] at h
    cases hr : rstrip bs with
    | nil =>
      rw [hr] at h
      by_cases hc : isPySpace c
      · simp [hc] at h
      · simp only [if_neg hc, List.mem_singleton] at h
        simp [h]
    | cons y r2 =>
      rw [hr] at h
      rcases List.mem_cons.mp h with rfl | h2
      · simp
      · exact List.mem_cons_of_mem c (ih (hr ▸ h2))

/-- Helper: `pyStrip` keeps only characters of its input. -/
theorem mem_pyStrip {x : Char} {l : List Char} (h : x ∈ pyStrip l) : x ∈ l :=
  (List.dropWhile_sublist isPySpace).subset (mem_rstrip h)

/-- Helper: `rstrip` of a cons is empty or keeps the head, over a sublist of
the tail. -/
theorem rstrip_cons_shape (c : Char) (bs : List Char) :
    rstrip (c :: bs) = [] ∨
      ∃ r, rstrip (c :: bs) = c :: r ∧ ∀ x ∈ r, x ∈ bs := by
  rw [show rstrip (c :: bs) =
      (match rstrip bs with
       | [] => if isPySpace c then [] else [c]
       | r => c :: r) from rfl]
  cases hr : rstrip bs with
  | nil =>
    by_cases hc : isPySpace c
    · exact Or.inl (by simp [hc])
    · exact Or.inr ⟨[], by simp [hc], by simp⟩
  | cons y r2 =>
    exact Or.inr ⟨y :: r2, rfl, fun x hx => mem_rstrip (hr ▸ hx)⟩

/-- Helper: `rstrip` leaves a list alone when a suffix of it is already
strip-stable and nonempty. -/
theorem rstrip_append_stable :
    ∀ (l suffix : List Char), rstrip suffix = suffix → suffix ≠ [] →
      rstrip (l ++ suffix) = l ++ suffix := by
  intro l suffix hs hne
  induction l with
  | nil => simpa using hs
  | cons c l2 ih =>
    rw [List.cons_append,
      show rstrip (c :: (l2 ++ suffix)) =
        (match rstrip (l2 ++ suffix) with
         | [] => if isPySpace c then [] else [c]
         | r => c :: r) from rfl, ih]
    cases hl : l2 ++ suffix with
    | nil => exact absurd (List.append_eq_nil.mp hl).2 hne
    | cons y r2 => rfl

/-- Helper: a successful `rootSplit` gives a quality inside the body, with no
newline, and a nonempty root. -/
theorem rootSplit_some_facts {body root q : List Char}
    (h : rootSplit body = some (root, q)) :
    (∀ x ∈ q, x ∈ body) ∧ '\n' ∉ q ∧ root ≠ [] := by
  cases body with
  | nil => simp [rootSplit] at h
  | cons c rest =>
    by_cases hc : isRootLetter c
    · cases rest with
      | nil =>
        simp only [rootSplit, hc, if_true] at h
        simp only [show ('\n' ∈ ([] : List Char)) = False by simp, if_false] at h
        simp only [Option.some.injEq, Prod.mk.injEq] at h
        obtain ⟨hroot, hq⟩ := h
        exact ⟨by rw [← hq]; intro x hx; simp at hx, by rw [← hq]; simp,
          by rw [← hroot]; simp⟩
      | cons a r2 =>
        by_cases ha : isAccidental a
        · simp only [rootSplit, hc, if_true, ha] at h
          by_cases hnl : '\n' ∈ r2
          · rw [if_pos hnl] at h
            by_cases hlast : r2.getLast? = some '\n' ∧ '\n' ∉ r2.dropLast
            · rw [if_pos hlast] at h
              simp only [Option.some.injEq, Prod.mk.injEq] at h
              obtain ⟨hroot, hq⟩ := h
              refine ⟨?_, by rw [← hq]; exact hlast.2, by rw [← hroot]; simp⟩
              rw [← hq]
              intro x hx
              have := (List.dropLast_sublist r2).subset hx
              simp [this]
            · rw [if_neg hlast] at h
              simp at h
          · rw [if_neg hnl] at h
            simp only [Option.some.injEq, Prod.mk.injEq] at h
            obtain ⟨hroot, hq⟩ := h
            refine ⟨?_, by rw [← hq]; exact hnl, by rw [← hroot]; simp⟩
            rw [← hq]
            intro x hx
            simp [hx]
        · simp only [rootSplit, hc, if_true, ha, Bool.false_eq_true, if_false] at h
          by_cases hnl : '\n' ∈ a :: r2
          · rw [if_pos hnl] at h
            by_cases hlast : (a :: r2).getLast? = some '\n' ∧ '\n' ∉ (a :: r2).dropLast
            · rw [if_pos hlast] at h
              simp only [Option.some.injEq, Prod.mk.injEq] at h
              obtain ⟨hroot, hq⟩ := h
              refine ⟨?_, by rw [← hq]; exact hlast.2, by rw [← hroot]; simp⟩
              rw [← hq]
              intro x hx
              have := (List.dropLast_sublist (a :: r2)).subset hx
              simp [this]
            · rw [if_neg hlast] at h
              simp at h
          · rw [if_neg hnl] at h
            simp only [Option.some.injEq, Prod.mk.injEq] at h
            obtain ⟨hroot, hq⟩ := h
            refine ⟨?_, by rw [← hq]; exact hnl, by rw [← hroot]; simp⟩
            rw [← hq]
            intro x hx
            simp [hx]
    · simp [rootSplit, hc] at h


/-- Helper: facts about both chromatic tables, index by index: entries are
nonempty root-letter-headed strings free of `]`, `\n`, `/` and whitespace,
strip-stable, case-normal, and map back to their own index under
`get_semitone_index`. -/
theorem chromatic_facts : ∀ i, i < 12 →
    (CHROMATIC_SHARP.getD i [] ≠ [] ∧
      isRootLetter ((CHROMATIC_SHARP.getD i []).headD ' ') = true ∧
      ']' ∉ CHROMATIC_SHARP.getD i [] ∧ '\n' ∉ CHROMATIC_SHARP.getD i [] ∧
      '/' ∉ CHROMATIC_SHARP.getD i [] ∧
      rstrip (CHROMATIC_SHARP.getD i []) = CHROMATIC_SHARP.getD i [] ∧
      get_semitone_index (CHROMATIC_SHARP.getD i []) = i) ∧
    (CHROMATIC_FLAT.getD i [] ≠ [] ∧
      isRootLetter ((CHROMATIC_FLAT.getD i []).headD ' ') = true ∧
      ']' ∉ CHROMATIC_FLAT.getD i [] ∧ '\n' ∉ CHROMATIC_FLAT.getD i [] ∧
      '/' ∉ CHROMATIC_FLAT.getD i [] ∧
      rstrip (CHROMATIC_FLAT.getD i []) = CHROMATIC_FLAT.getD i [] ∧
      get_semitone_index (CHROMATIC_FLAT.getD i []) = i) := by
  decide

/-- Helper: parsing a chord body that starts with a root letter yields a
nonempty root and a quality free of `\n` and `/` whose characters all come
from the body. -/
theorem parse_chord_good_facts (c : Char) (bs : List Char)
    (hroot : isRootLetter c = true) :
    (parse_chord (c :: bs)).root ≠ [] ∧
    '\n' ∉ (parse_chord (c :: bs)).quality ∧
    '/' ∉ (parse_chord (c :: bs)).quality ∧
    (∀ x ∈ (parse_chord (c :: bs)).quality, x ∈ c :: bs) := by
  have hfacts := isRootLetter_ne_special hroot
  have ht : pyStrip (c :: bs) = c :: rstrip bs := by
    rw [pyStrip, List.dropWhile_cons_of_neg (by simp [hfacts.1]),
      rstrip_cons_not_space bs hfacts.1]
  have hsp : ∃ body2, (slashSplit (pyStrip (c :: bs))).1 = c :: body2 ∧
      (∀ x ∈ body2, x ∈ bs) ∧ '/' ∉ (slashSplit (pyStrip (c :: bs))).1 := by
    by_cases hslash : '/' ∈ pyStrip (c :: bs)
    · refine ⟨(rstrip bs).takeWhile (· ≠ '/'), ?_, ?_, ?_⟩
      · rw [show (slashSplit (pyStrip (c :: bs))).1 =
            (pyStrip (c :: bs)).takeWhile (· ≠ '/') from by simp [slashSplit, hslash],
          ht, List.takeWhile_cons_of_pos (by simp [hfacts.2.2.2.1])]
      · intro x hx
        exact mem_rstrip ((List.takeWhile_sublist _).subset hx)
      · rw [show (slashSplit (pyStrip (c :: bs))).1 =
            (pyStrip (c :: bs)).takeWhile (· ≠ '/') from by simp [slashSplit, hslash]]
        intro hm
        have := List.mem_takeWhile_imp hm
        simp at this
    · refine ⟨rstrip bs, ?_, fun x hx => mem_rstrip hx, ?_⟩
      · rw [show (slashSplit (pyStrip (c :: bs))).1 = pyStrip (c :: bs) from by
          simp [slashSplit, hslash], ht]
      · rw [show (slashSplit (pyStrip (c :: bs))).1 = pyStrip (c :: bs) from by
          simp [slashSplit, hslash]]
        exact hslash
  obtain ⟨body2, hb2, hb2mem, hnoslash⟩ := hsp
  cases hrs : rootSplit ((slashSplit (pyStrip (c :: bs))).1) with
  | none =>
    have hparse : parse_chord (c :: bs) =
        ⟨(slashSplit (pyStrip (c :: bs))).1, [], (slashSplit (pyStrip (c :: bs))).2⟩ := by
      simp only [parse_chord, hrs]
    rw [hparse]
    refine ⟨by rw [hb2]; simp, by simp, by simp, by simp⟩
  | some rq =>
    have hparse : parse_chord (c :: bs) =
        ⟨normRoot rq.1, rq.2, (slashSplit (pyStrip (c :: bs))).2⟩ := by
      simp only [parse_chord, hrs]
    obtain ⟨hqmem, hqnl, hrne⟩ := @rootSplit_some_facts _ rq.1 rq.2
      (by rw [hrs])
    rw [hparse]
    refine ⟨?_, hqnl, ?_, ?_⟩
    · cases hr1 : rq.1 with
      | nil => exact absurd hr1 hrne
      | cons y ys => simp [normRoot]
    · intro hm
      exact hnoslash (hqmem _ hm)
    · intro x hm
      have := hqmem x hm
      rw [hb2] at this
      rcases List.mem_cons.mp this with rfl | h2
      · simp
      · exact List.mem_cons_of_mem c (hb2mem x h2)

/-- Helper: `transpose_note` of a nonempty note is a chromatic-table entry. -/
theorem transpose_note_table (note : List Char) (hne : note ≠ []) (s : Nat) (fl : Bool) :
    transpose_note note s fl =
      (if fl then CHROMATIC_FLAT else CHROMATIC_SHARP).getD
        ((get_semitone_index note + s) % 12) [] := by
  rw [transpose_note, if_neg hne]
  cases fl <;> rfl

/-- Helper: the shape of a transposed chord: transposed root, verbatim
quality, then the transposed bass when the original bass is truthy. -/
theorem transpose_chord_structure (b : List Char) (s : Nat) (fl : Bool)
    (hroot_ne : (parse_chord b).root ≠ []) :
    transpose_chord b s fl =
      ((if fl then CHROMATIC_FLAT else CHROMATIC_SHARP).getD
        ((get_semitone_index (parse_chord b).root + s) % 12) []) ++
      (parse_chord b).quality ++
      (match (parse_chord b).bass with
       | some bs => if bs = [] then [] else
           '/' :: ((if fl then CHROMATIC_FLAT else CHROMATIC_SHARP).getD
             ((get_semitone_index bs + s) % 12) [])
       | none => []) := by
  have hmod : ∀ n : Nat, n % 12 < 12 := fun n => Nat.mod_lt n (by omega)
  have htne : ∀ i, i < 12 →
      (if fl then CHROMATIC_FLAT else CHROMATIC_SHARP).getD i [] ≠ [] := by
    intro i hi
    cases fl
    · exact ((chromatic_facts i hi).1).1
    · exact ((chromatic_facts i hi).2).1
  unfold transpose_chord
  cases hbass : (parse_chord b).bass with
  | none =>
    simp only [hbass]
    rw [transpose_note_table _ hroot_ne s fl]
    simp
  | some bs =>
    by_cases hbs : bs = []
    · subst hbs
      simp only [hbass]
      rw [transpose_note_table _ hroot_ne s fl]
      simp
    · simp only [hbass, if_neg hbs]
      rw [transpose_note_table _ hroot_ne s fl, transpose_note_table _ hbs s fl]
      rw [if_neg (htne _ (hmod _))]

/-- Helper: transposing preserves chord-body well-formedness and introduces no
newline. -/
theorem transpose_chord_good (s : Nat) (fl : Bool) :
    ∀ b : List Char, goodBody b →
      goodBody (transpose_chord b s fl) ∧ '\n' ∉ transpose_chord b s fl := by
  intro b hb
  obtain ⟨hne, hroot, hnb⟩ := hb
  obtain ⟨c, bs, rfl⟩ : ∃ c bs, b = c :: bs := by
    cases b with
    | nil => exact absurd rfl hne
    | cons c bs => exact ⟨c, bs, rfl⟩
  rw [List.headD_cons] at hroot
  obtain ⟨hrne, hqnl, hqsl, hqmem⟩ := parse_chord_good_facts c bs hroot
  have hmod : ∀ n : Nat, n % 12 < 12 := fun n => Nat.mod_lt n (by omega)
  have hentry : ∀ i, i < 12 →
      ((if fl then CHROMATIC_FLAT else CHROMATIC_SHARP).getD i [] ≠ [] ∧
       isRootLetter (((if fl then CHROMATIC_FLAT else CHROMATIC_SHARP).getD i
          []).headD ' ') = true ∧
       ']' ∉ (if fl then CHROMATIC_FLAT else CHROMATIC_SHARP).getD i [] ∧
       '\n' ∉ (if fl then CHROMATIC_FLAT else CHROMATIC_SHARP).getD i []) := by
    intro i hi
    cases fl
    · exact ⟨((chromatic_facts i hi).1).1, ((chromatic_facts i hi).1).2.1,
        ((chromatic_facts i hi).1).2.2.1, ((chromatic_facts i hi).1).2.2.2.1⟩
    · exact ⟨((chromatic_facts i hi).2).1, ((chromatic_facts i hi).2).2.1,
        ((chromatic_facts i hi).2).2.2.1, ((chromatic_facts i hi).2).2.2.2.1⟩
  rw [transpose_chord_structure (c :: bs) s fl hrne]
  obtain ⟨hene, heroot, herb, henl⟩ :=
    hentry ((get_semitone_index (parse_chord (c :: bs)).root + s) % 12) (hmod _)
  have hbp : ']' ∉ (match (parse_chord (c :: bs)).bass with
       | some b2 => if b2 = [] then [] else
           '/' :: ((if fl then CHROMATIC_FLAT else CHROMATIC_SHARP).getD
             ((get_semitone_index b2 + s) % 12) [])
       | none => ([] : List Char)) ∧
      '\n' ∉ (match (parse_chord (c :: bs)).bass with
       | some b2 => if b2 = [] then [] else
           '/' :: ((if fl then CHROMATIC_FLAT else CHROMATIC_SHARP).getD
             ((get_semitone_index b2 + s) % 12) [])
       | none => ([] : List Char)) := by
    cases hbass : (parse_chord (c :: bs)).bass with
    | none => simp
    | some b2 =>
      by_cases hb2 : b2 = []
      · simp [hb2]
      · obtain ⟨_, _, he1, he2⟩ := hentry ((get_semitone_index b2 + s) % 12) (hmod _)
        simp only [if_neg hb2]
        constructor
        · intro hm
          rcases List.mem_cons.mp hm with h | h
          · simp at h
          · exact he1 h
        · intro hm
          rcases List.mem_cons.mp hm with h | h
          · simp at h
          · exact he2 h
  constructor
  · refine ⟨?_, ?_, ?_⟩
    · intro hemp
      rcases List.append_eq_nil.mp (List.append_eq_nil.mp hemp).1 with ⟨h1, _⟩
      exact hene h1
    · cases he : (if fl then CHROMATIC_FLAT else CHROMATIC_SHARP).getD
          ((get_semitone_index (parse_chord (c :: bs)).root + s) % 12) [] with
      | nil => exact absurd he hene
      | cons e0 es =>
        rw [he] at heroot
        simpa using heroot
    · intro hm
      rcases List.mem_append.mp hm with hm2 | hm2
      · rcases List.mem_append.mp hm2 with hm3 | hm3
        · exact herb hm3
        · exact hnb (by
            have := hqmem _ hm3
            simpa using this)
      · exact hbp.1 hm2
  · intro hm
    rcases List.mem_append.mp hm with hm2 | hm2
    · rcases List.mem_append.mp hm2 with hm3 | hm3
      · exact henl hm3
      · exact hqnl hm3
    · exact hbp.2 hm2


/-- Helper: chord replacement does not change the text/chord shape of a piece
list. -/
theorem mapChords_pieceShape (f : List Char → List Char) :
    ∀ ps : List Piece, (mapChords f ps).map pieceShape = ps.map pieceShape := by
  intro ps
  induction ps with
  | nil => rfl
  | cons p rest ih =>
    cases p with
    | text s =>
      show Piece.text s :: (mapChords f rest).map pieceShape =
        Piece.text s :: rest.map pieceShape
      rw [ih]
    | chord b =>
      show Piece.chord [] :: (mapChords f rest).map pieceShape =
        Piece.chord [] :: rest.map pieceShape
      rw [ih]

/-- Helper: newline counts are unchanged by a newline-free chord replacement
over newline-free bodies. -/
theorem newlineCount_mapChords (T : List Char → List Char)
    (hT : ∀ b, goodBody b → '\n' ∉ T b) :
    ∀ {ps : List Piece}, GoodPieces ps → (∀ b ∈ chordBodies ps, '\n' ∉ b) →
      newlineCount (flattenPieces (mapChords T ps)) =
        newlineCount (flattenPieces ps) := by
  intro ps hg
  induction hg with
  | nil => intro _; rfl
  | @text_other c rest hc hgrest ih =>
    intro hb
    rw [show mapChords T (Piece.text [c] :: rest) =
        Piece.text [c] :: mapChords T rest from rfl,
      flattenPieces_cons, flattenPieces_cons]
    simp only [newlineCount, List.count_append]
    rw [show (List.count '\n' (flattenPieces (mapChords T rest)) : Nat) =
        newlineCount (flattenPieces (mapChords T rest)) from rfl,
      show (List.count '\n' (flattenPieces rest) : Nat) =
        newlineCount (flattenPieces rest) from rfl,
      ih (fun b hbm => hb b (by simpa [chordBodies, List.filterMap_cons] using hbm))]
  | @text_lb rest hnone hgrest ih =>
    intro hb
    rw [show mapChords T (Piece.text ['['] :: rest) =
        Piece.text ['['] :: mapChords T rest from rfl,
      flattenPieces_cons, flattenPieces_cons]
    simp only [newlineCount, List.count_append]
    rw [show (List.count '\n' (flattenPieces (mapChords T rest)) : Nat) =
        newlineCount (flattenPieces (mapChords T rest)) from rfl,
      show (List.count '\n' (flattenPieces rest) : Nat) =
        newlineCount (flattenPieces rest) from rfl,
      ih (fun b hbm => hb b (by simpa [chordBodies, List.filterMap_cons] using hbm))]
  | @chord b rest hne hroot hnb hgrest ih =>
    intro hb
    rw [show mapChords T (Piece.chord b :: rest) =
        Piece.chord (T b) :: mapChords T rest from rfl,
      flattenPieces_cons, flattenPieces_cons]
    simp only [newlineCount, renderPiece, List.count_append, List.count_cons]
    have hTb : List.count '\n' (T b) = 0 :=
      List.count_eq_zero.mpr (hT b ⟨hne, hroot, hnb⟩)
    have hbb : List.count '\n' b = 0 :=
      List.count_eq_zero.mpr (hb b (by simp [chordBodies, List.filterMap_cons]))
    rw [hTb, hbb,
      show (List.count '\n' (flattenPieces (mapChords T rest)) : Nat) =
        newlineCount (flattenPieces (mapChords T rest)) from rfl,
      show (List.count '\n' (flattenPieces rest) : Nat) =
        newlineCount (flattenPieces rest) from rfl,
      ih (fun b2 hbm => hb b2 (by
        simp only [chordBodies, List.filterMap_cons] at hbm ⊢
        exact List.mem_cons_of_mem b hbm))]

/-- C4 counterexample: a newline inside a bracketed chord body is destroyed by
transposition, so the line count is not always preserved: `"[G\nx]"` has two
lines, but transposing it from C to C# yields the one-line `"[C#]"`. -/
theorem c4_transpose_chordpro_cex :
    transpose_chordpro ("[G\nx]".data) ("C".data) ("C#".data) = ("[C#]".data) ∧
    newlineCount ("[G\nx]".data) = 1 ∧
    newlineCount (transpose_chordpro ("[G\nx]".data) ("C".data) ("C#".data)) = 0 := by
  decide

/-- C4 (amended): a zero shift returns the input unchanged; transposition
never alters document structure outside the bracketed chords — the scan of
the output has exactly the same text characters and chord positions as the
scan of the input; and the line count is preserved provided no bracketed
chord body contains a newline (a chord body may contain a newline, which
transposition removes). -/
theorem c4_transpose_chordpro :
    (∀ content from_key to_key : List Char,
      calculate_transpose_semitones from_key to_key = 0 →
      transpose_chordpro content from_key to_key = content) ∧
    (∀ content from_key to_key : List Char,
      (tokenize (transpose_chordpro content from_key to_key)).map pieceShape =
        (tokenize content).map pieceShape) ∧
    (∀ content from_key to_key : List Char,
      (∀ b ∈ chordBodies (tokenize content), '\n' ∉ b) →
      newlineCount (transpose_chordpro content from_key to_key) =
        newlineCount content) := by
  refine ⟨?_, ?_, ?_⟩
  · intro content from_key to_key h
    simp [transpose_chordpro, h]
  · intro content from_key to_key
    by_cases h : calculate_transpose_semitones from_key to_key = 0
    · rw [show transpose_chordpro content from_key to_key = content from by
        simp [transpose_chordpro, h]]
    · have hout : transpose_chordpro content from_key to_key =
          flattenPieces (mapChords
            (fun c => transpose_chord c (calculate_transpose_semitones from_key to_key)
              (FLAT_KEYS.contains to_key))
            (tokenize content)) := by
        simp [transpose_chordpro, h]
      rw [hout, tokenize_flatten_good (goodPieces_mapChords _
        (fun b hb => (transpose_chord_good _ _ b hb).1) (goodPieces_tokenize content)),
        mapChords_pieceShape]
  · intro content from_key to_key hnl
    by_cases h : calculate_transpose_semitones from_key to_key = 0
    · rw [show transpose_chordpro content from_key to_key = content from by
        simp [transpose_chordpro, h]]
    · have hout : transpose_chordpro content from_key to_key =
          flattenPieces (mapChords
            (fun c => transpose_chord c (calculate_transpose_semitones from_key to_key)
              (FLAT_KEYS.contains to_key))
            (tokenize content)) := by
        simp [transpose_chordpro, h]
      rw [hout,
        newlineCount_mapChords _ (fun b hb => (transpose_chord_good _ _ b hb).2)
          (goodPieces_tokenize content) hnl,
        flattenPieces_tokenize]

/-- Witness for C4: the zero-shift fast path and newline-count preservation at
concrete inputs. -/
theorem c4_transpose_chordpro_witness :
    transpose_chordpro ("[G]x\ny".data) ("C".data) ("C".data) = ("[G]x\ny".data) ∧
    newlineCount (transpose_chordpro ("[G]x\ny".data) ("G".data) ("A".data)) =
      newlineCount ("[G]x\ny".data) :=
  ⟨c4_transpose_chordpro.1 ("[G]x\ny".data) ("C".data) ("C".data) (by decide),
   c4_transpose_chordpro.2.2 ("[G]x\ny".data) ("G".data) ("A".data) (by decide)⟩


/-- Helper: `rstrip` over an append. -/
theorem rstrip_append :
    ∀ (l1 l2 : List Char),
      rstrip (l1 ++ l2) = if rstrip l2 = [] then rstrip l1 else l1 ++ rstrip l2 := by
  intro l1 l2
  induction l1 with
  | nil =>
    simp only [List.nil_append]
    cases hr : rstrip l2 with
    | nil => simp [hr, rstrip]
    | cons y r2 => simp [hr]
  | cons c l1' ih =>
    rw [List.cons_append,
      show rstrip (c :: (l1' ++ l2)) =
        (match rstrip (l1' ++ l2) with
         | [] => if isPySpace c then [] else [c]
         | r => c :: r) from rfl, ih]
    by_cases hr2 : rstrip l2 = []
    · rw [if_pos hr2, if_pos hr2,
        show rstrip (c :: l1') =
          (match rstrip l1' with
           | [] => if isPySpace c then [] else [c]
           | r => c :: r) from rfl]
    · rw [if_neg hr2, if_neg hr2]
      cases hx : l1' ++ rstrip l2 with
      | nil => exact absurd (List.append_eq_nil.mp hx).2 hr2
      | cons y r2 =>
        show c :: (y :: r2) = c :: l1' ++ rstrip l2
        rw [← hx, List.cons_append]

/-- Helper: shape of the chromatic-table entries: one root letter, or a root
letter followed by an accidental, already case-normal. -/
theorem chromatic_shape : ∀ i, i < 12 →
    ((CHROMATIC_SHARP.getD i []).length = 1 ∨
      ((CHROMATIC_SHARP.getD i []).length = 2 ∧
        isAccidental ((CHROMATIC_SHARP.getD i []).getD 1 ' ') = true)) ∧
    normRoot (CHROMATIC_SHARP.getD i []) = CHROMATIC_SHARP.getD i [] ∧
    ((CHROMATIC_FLAT.getD i []).length = 1 ∨
      ((CHROMATIC_FLAT.getD i []).length = 2 ∧
        isAccidental ((CHROMATIC_FLAT.getD i []).getD 1 ' ') = true)) ∧
    normRoot (CHROMATIC_FLAT.getD i []) = CHROMATIC_FLAT.getD i [] := by
  decide


/-- Helper: `rootSplit` on a table-entry root followed by a quality that does
not start with an accidental recovers exactly that root and quality. -/
theorem rootSplit_entry (e q2 : List Char)
    (he_ne : e ≠ []) (he_root : isRootLetter (e.headD ' ') = true)
    (hshape : e.length = 1 ∨ (e.length = 2 ∧ isAccidental (e.getD 1 ' ') = true))
    (hq1 : '\n' ∉ q2)
    (hq3 : ∀ a, q2.head? = some a → isAccidental a = false) :
    rootSplit (e ++ q2) = some (e, q2) := by
  obtain ⟨eh, et, rfl⟩ : ∃ eh et, e = eh :: et := by
    cases e with
    | nil => exact absurd rfl he_ne
    | cons x xs => exact ⟨x, xs, rfl⟩
  rw [List.headD_cons] at he_root
  rcases hshape with h1 | h2
  · have het : et = [] := by
      simp only [List.length_cons] at h1
      exact List.eq_nil_of_length_eq_zero (by omega)
    subst het
    cases hq : q2 with
    | nil =>
      simp [rootSplit, he_root]
    | cons a r2 =>
      have ha : isAccidental a = false := hq3 a (by rw [hq]; rfl)
      rw [show (eh :: [] : List Char) ++ a :: r2 = eh :: a :: r2 from rfl]
      rw [hq] at hq1
      simp only [rootSplit, he_root, if_true, ha, Bool.false_eq_true, if_false]
      rw [if_neg (by simpa using hq1)]
  · obtain ⟨hlen, hacc⟩ := h2
    obtain ⟨a0, rfl⟩ : ∃ a0, et = [a0] := by
      cases et with
      | nil => simp at hlen
      | cons y ys =>
        cases ys with
        | nil => exact ⟨y, rfl⟩
        | cons z zs => simp at hlen
    rw [show (eh :: [a0] : List Char) ++ q2 = eh :: a0 :: q2 from rfl]
    have hacc2 : isAccidental a0 = true := by
      simpa [List.getD] using hacc
    simp only [rootSplit, he_root, if_true, hacc2]
    rw [if_neg (by simpa using hq1)]

/-- Helper: re-parsing a rebuilt chord (table root ++ quality ++ optional
slash bass) recovers the root, the (right-stripped, when no bass follows)
quality, and the bass. -/
theorem parse_chord_reparse (e q : List Char) (bp : Option (List Char))
    (he_ne : e ≠ []) (he_root : isRootLetter (e.headD ' ') = true)
    (he_rstrip : rstrip e = e) (he_slash : '/' ∉ e)
    (hshape : e.length = 1 ∨ (e.length = 2 ∧ isAccidental (e.getD 1 ' ') = true))
    (he_norm : normRoot e = e)
    (hq1 : '\n' ∉ q) (hq2 : '/' ∉ q)
    (hq3 : ∀ a, q.head? = some a → isAccidental a = false)
    (hbp : ∀ nb, bp = some nb → nb ≠ [] ∧ rstrip nb = nb ∧ '/' ∉ nb) :
    parse_chord (e ++ q ++ (match bp with | some nb => '/' :: nb | none => [])) =
      ⟨e, (match bp with | some _ => q | none => rstrip q), bp⟩ := by
  obtain ⟨eh, et, he⟩ : ∃ eh et, e = eh :: et := by
    cases e with
    | nil => exact absurd rfl he_ne
    | cons x xs => exact ⟨x, xs, rfl⟩
  have heh_root : isRootLetter eh = true := by rw [he] at he_root; simpa using he_root
  have heh := isRootLetter_ne_special heh_root
  cases bp with
  | none =>
    have hps : pyStrip (e ++ q) = e ++ rstrip q := by
      rw [pyStrip, he, List.cons_append,
        List.dropWhile_cons_of_neg (by simp [heh.1]), ← List.cons_append, ← he,
        rstrip_append]
      by_cases hrq : rstrip q = []
      · rw [if_pos hrq, hrq, List.append_nil, he_rstrip]
      · rw [if_neg hrq]
    have hsl : (slashSplit (pyStrip (e ++ q))).1 = e ++ rstrip q ∧
        (slashSplit (pyStrip (e ++ q))).2 = none := by
      rw [hps]
      have hns : '/' ∉ e ++ rstrip q := by
        intro hm
        rcases List.mem_append.mp hm with h | h
        · exact he_slash h
        · exact hq2 (mem_rstrip h)
      simp [slashSplit, hns]
    have hq1' : '\n' ∉ rstrip q := fun hm => hq1 (mem_rstrip hm)
    have hq3' : ∀ a, (rstrip q).head? = some a → isAccidental a = false := by
      intro a ha
      cases q with
      | nil => simp [rstrip] at ha
      | cons qc qt =>
        rcases rstrip_cons_shape qc qt with h | ⟨r, hr, _⟩
        · rw [h] at ha; simp at ha
        · rw [hr] at ha
          simp only [List.head?_cons, Option.some.injEq] at ha
          exact hq3 a (by rw [← ha]; rfl)
    have hrs := rootSplit_entry e (rstrip q) he_ne he_root hshape hq1' hq3'
    rw [show e ++ q ++ (match (none : Option (List Char)) with
        | some nb => '/' :: nb | none => ([] : List Char)) = e ++ q from by simp]
    rw [show parse_chord (e ++ q) =
        (match rootSplit ((slashSplit (pyStrip (e ++ q))).1) with
         | some rq => ChordInfo.mk (normRoot rq.1) rq.2 ((slashSplit (pyStrip (e ++ q))).2)
         | none => ChordInfo.mk ((slashSplit (pyStrip (e ++ q))).1) []
             ((slashSplit (pyStrip (e ++ q))).2)) from rfl]
    rw [hsl.1, hsl.2, hrs]
    simp [he_norm]
  | some nb =>
    obtain ⟨hnb_ne, hnb_rstrip, hnb_slash⟩ := hbp nb rfl
    rw [show e ++ q ++ (match (some nb : Option (List Char)) with
        | some nb => '/' :: nb | none => ([] : List Char)) = (e ++ q) ++ '/' :: nb
        from rfl]
    have hps : pyStrip ((e ++ q) ++ '/' :: nb) = (e ++ q) ++ '/' :: nb := by
      rw [pyStrip, he, List.cons_append, List.cons_append,
        List.dropWhile_cons_of_neg (by simp [heh.1]), ← List.cons_append,
        ← List.cons_append, ← he, rstrip_append]
      rw [rstrip_cons_not_space nb (by decide), hnb_rstrip]
      rw [if_neg (by simp)]
    have hall : ∀ x ∈ e ++ q, (fun y => decide (y ≠ '/')) x = true := by
      intro x hx
      simp only [decide_eq_true_eq]
      intro hx2
      subst hx2
      rcases List.mem_append.mp hx with h | h
      · exact he_slash h
      · exact hq2 h
    have hallnb : ∀ x ∈ nb, (fun y => decide (y ≠ '/')) x = true := by
      intro x hx
      simp only [decide_eq_true_eq]
      intro hx2
      subst hx2
      exact hnb_slash hx
    have hsl1 : (slashSplit (pyStrip ((e ++ q) ++ '/' :: nb))).1 = e ++ q := by
      rw [hps, show (slashSplit ((e ++ q) ++ '/' :: nb)).1 =
          if '/' ∈ (e ++ q) ++ '/' :: nb then
            ((e ++ q) ++ '/' :: nb).takeWhile (· ≠ '/')
          else (e ++ q) ++ '/' :: nb from by
        by_cases hm : '/' ∈ (e ++ q) ++ '/' :: nb <;> simp [slashSplit, hm]]
      rw [if_pos (by simp), takeWhile_all_append _ _ hall,
        List.takeWhile_cons_of_neg (by simp)]
      simp
    have hsl2 : (slashSplit (pyStrip ((e ++ q) ++ '/' :: nb))).2 = some nb := by
      rw [hps, show (slashSplit ((e ++ q) ++ '/' :: nb)).2 =
          if '/' ∈ (e ++ q) ++ '/' :: nb then
            some (((((e ++ q) ++ '/' :: nb).dropWhile (· ≠ '/')).tail).takeWhile
              (· ≠ '/'))
          else none from by
        by_cases hm : '/' ∈ (e ++ q) ++ '/' :: nb <;> simp [slashSplit, hm]]
      rw [if_pos (by simp), dropWhile_all_append _ _ hall,
        List.dropWhile_cons_of_neg (by simp)]
      simp only [List.tail_cons]
      have hnbfull : nb.takeWhile (fun y => decide (y ≠ '/')) = nb := by
        have h2 := takeWhile_all_append nb [] hallnb
        simpa using h2
      rw [hnbfull]
    have hrs := rootSplit_entry e q he_ne he_root hshape hq1 hq3
    rw [show parse_chord ((e ++ q) ++ '/' :: nb) =
        (match rootSplit ((slashSplit (pyStrip ((e ++ q) ++ '/' :: nb))).1) with
         | some rq => ChordInfo.mk (normRoot rq.1) rq.2
             ((slashSplit (pyStrip ((e ++ q) ++ '/' :: nb))).2)
         | none => ChordInfo.mk ((slashSplit (pyStrip ((e ++ q) ++ '/' :: nb))).1) []
             ((slashSplit (pyStrip ((e ++ q) ++ '/' :: nb))).2)) from rfl]
    rw [hsl1, hsl2, hrs]
    simp [he_norm]


/-- Helper: a found index is within the list. -/
theorem indexOf?_lt_length {x : List Char} :
    ∀ (l : List (List Char)) (i : Nat), l.indexOf? x = some i → i < l.length := by
  intro l
  induction l with
  | nil => intro i h; simp at h
  | cons a l ih =>
    intro i h
    rw [List.indexOf?_cons] at h
    by_cases hax : a == x
    · rw [if_pos hax] at h
      cases h
      simp
    · rw [if_neg hax] at h
      cases hi : l.indexOf? x with
      | none => rw [hi] at h; simp at h
      | some j =>
        rw [hi] at h
        simp only [Option.map_some', Option.some.injEq] at h
        have := ih j hi
        simp only [List.length_cons]
        omega

/-- Helper: every pitch class computed by `get_semitone_index` is below 12. -/
theorem gsi_lt_12 (note : List Char) : get_semitone_index note < 12 := by
  rw [show get_semitone_index note =
      (match CHROMATIC_SHARP.indexOf?
          ((FLAT_TO_SHARP.lookup (noteCaseNorm (pyStrip note))).getD
            (noteCaseNorm (pyStrip note))) with
       | some i => i
       | none => 0) from rfl]
  cases h : CHROMATIC_SHARP.indexOf?
      ((FLAT_TO_SHARP.lookup (noteCaseNorm (pyStrip note))).getD
        (noteCaseNorm (pyStrip note))) with
  | none => decide
  | some i =>
    have hlt := indexOf?_lt_length CHROMATIC_SHARP i h
    simpa using hlt

/-- Helper: right-stripping cannot introduce a leading accidental. -/
theorem rstrip_head_acc (q : List Char)
    (hq3 : ∀ a, q.head? = some a → isAccidental a = false) :
    ∀ a, (rstrip q).head? = some a → isAccidental a = false := by
  intro a ha
  cases q with
  | nil => simp [rstrip] at ha
  | cons qc qt =>
    rcases rstrip_cons_shape qc qt with h | ⟨r, hr, _⟩
    · rw [h] at ha; simp at ha
    · rw [hr] at ha
      simp only [List.head?_cons, Option.some.injEq] at ha
      exact hq3 a (by rw [← ha]; rfl)

/-- Helper: `bassPitchClass` through Python truthiness. -/
theorem bassPitchClass_eq (b : List Char) :
    bassPitchClass b = (truthyBass (parse_chord b).bass).map get_semitone_index := by
  cases hb : (parse_chord b).bass with
  | none => simp [bassPitchClass, truthyBass, hb]
  | some bs =>
    by_cases hbs : bs = [] <;> simp [bassPitchClass, truthyBass, hb, hbs]

/-- Helper: transposed-chord shape with the bass in truthy option form. -/
theorem transpose_chord_structure2 (b : List Char) (s : Nat) (fl : Bool)
    (hroot_ne : (parse_chord b).root ≠ []) :
    transpose_chord b s fl =
      ((if fl then CHROMATIC_FLAT else CHROMATIC_SHARP).getD
        ((get_semitone_index (parse_chord b).root + s) % 12) []) ++
      (parse_chord b).quality ++
      (match (truthyBass (parse_chord b).bass).map (fun bs2 =>
          (if fl then CHROMATIC_FLAT else CHROMATIC_SHARP).getD
            ((get_semitone_index bs2 + s) % 12) []) with
       | some nb => '/' :: nb
       | none => []) := by
  rw [transpose_chord_structure b s fl hroot_ne]
  cases hb : (parse_chord b).bass with
  | none => simp [truthyBass]
  | some bs =>
    by_cases hbs : bs = [] <;> simp [truthyBass, hbs]


/-- Helper: combined facts about an entry of whichever chromatic table the
flat/sharp flag selects. -/
theorem table_entry_facts (fl : Bool) (i : Nat) (hi : i < 12) :
    (if fl then CHROMATIC_FLAT else CHROMATIC_SHARP).getD i [] ≠ [] ∧
    isRootLetter (((if fl then CHROMATIC_FLAT else CHROMATIC_SHARP).getD i
      []).headD ' ') = true ∧
    '\n' ∉ (if fl then CHROMATIC_FLAT else CHROMATIC_SHARP).getD i [] ∧
    '/' ∉ (if fl then CHROMATIC_FLAT else CHROMATIC_SHARP).getD i [] ∧
    rstrip ((if fl then CHROMATIC_FLAT else CHROMATIC_SHARP).getD i []) =
      (if fl then CHROMATIC_FLAT else CHROMATIC_SHARP).getD i [] ∧
    get_semitone_index ((if fl then CHROMATIC_FLAT else CHROMATIC_SHARP).getD i
      []) = i ∧
    (((if fl then CHROMATIC_FLAT else CHROMATIC_SHARP).getD i []).length = 1 ∨
      (((if fl then CHROMATIC_FLAT else CHROMATIC_SHARP).getD i []).length = 2 ∧
        isAccidental (((if fl then CHROMATIC_FLAT else CHROMATIC_SHARP).getD i
          []).getD 1 ' ') = true)) ∧
    normRoot ((if fl then CHROMATIC_FLAT else CHROMATIC_SHARP).getD i []) =
      (if fl then CHROMATIC_FLAT else CHROMATIC_SHARP).getD i [] := by
  cases fl
  · obtain ⟨h1, h2, _, h4, h5, h6, h7⟩ := (chromatic_facts i hi).1
    obtain ⟨h8, h9, _, _⟩ := chromatic_shape i hi
    exact ⟨h1, h2, h4, h5, h6, h7, h8, h9⟩
  · obtain ⟨h1, h2, _, h4, h5, h6, h7⟩ := (chromatic_facts i hi).2
    obtain ⟨_, _, h8, h9⟩ := chromatic_shape i hi
    exact ⟨h1, h2, h4, h5, h6, h7, h8, h9⟩

/-- Helper: the forward and backward shifts cancel modulo 12, and one is zero
exactly when the other is. -/
theorem shift_props (K1 K2 : List Char) :
    (calculate_transpose_semitones K1 K2 + calculate_transpose_semitones K2 K1)
      % 12 = 0 ∧
    (calculate_transpose_semitones K1 K2 = 0 ↔
      calculate_transpose_semitones K2 K1 = 0) := by
  simp only [calculate_transpose_semitones]
  omega


/-- Helper: one chord body's root and bass pitch classes survive a transpose
by `s` followed by a transpose by `s2` when the two shifts cancel modulo 12,
provided the body's parsed quality does not start with an accidental. -/
theorem roundtrip_pointwise (s s2 : Nat) (fl1 fl2 : Bool)
    (hss : (s + s2) % 12 = 0) (b : List Char) (hb : goodBody b)
    (hq3 : ∀ a, (parse_chord b).quality.head? = some a →
      isAccidental a = false) :
    rootPitchClass (transpose_chord (transpose_chord b s fl1) s2 fl2) =
      rootPitchClass b ∧
    bassPitchClass (transpose_chord (transpose_chord b s fl1) s2 fl2) =
      bassPitchClass b := by
  have hcancel : ∀ p : Nat, p < 12 → ((p + s) % 12 + s2) % 12 = p := by
    intro p hp
    omega
  have hmod : ∀ n : Nat, n % 12 < 12 := fun n => Nat.mod_lt n (by omega)
  obtain ⟨hne, hrootb, _⟩ := hb
  obtain ⟨c, bs, rfl⟩ : ∃ c bs, b = c :: bs := by
    cases b with
    | nil => exact absurd rfl hne
    | cons c bs => exact ⟨c, bs, rfl⟩
  rw [List.headD_cons] at hrootb
  obtain ⟨hrne, hqnl, hqsl, _⟩ := parse_chord_good_facts c bs hrootb
  set r1 := (parse_chord (c :: bs)).root with hr1def
  set q1 := (parse_chord (c :: bs)).quality with hq1def
  obtain ⟨hE1ne, hE1root, hE1nl, hE1sl, hE1rs, hE1gsi, hE1shape, hE1norm⟩ :=
    table_entry_facts fl1 ((get_semitone_index r1 + s) % 12) (hmod _)
  set e1 := (if fl1 then CHROMATIC_FLAT else CHROMATIC_SHARP).getD
    ((get_semitone_index r1 + s) % 12) [] with he1def
  cases htb : truthyBass (parse_chord (c :: bs)).bass with
  | none =>
    have h1 : transpose_chord (c :: bs) s fl1 = e1 ++ q1 ++ [] := by
      have h := transpose_chord_structure2 (c :: bs) s fl1 hrne
      rw [htb] at h
      exact h
    have h12 : parse_chord (transpose_chord (c :: bs) s fl1) =
        ⟨e1, rstrip q1, none⟩ := by
      rw [h1]
      exact parse_chord_reparse e1 q1 none hE1ne hE1root hE1rs hE1sl hE1shape
        hE1norm hqnl hqsl hq3 (fun nb h => Option.noConfusion h)
    have hroot2ne : (parse_chord (transpose_chord (c :: bs) s fl1)).root ≠ [] := by
      rw [h12]
      exact hE1ne
    have hq3r : ∀ a, (rstrip q1).head? = some a → isAccidental a = false :=
      rstrip_head_acc q1 hq3
    have hqnlr : '\n' ∉ rstrip q1 := fun h => hqnl (mem_rstrip h)
    have hqslr : '/' ∉ rstrip q1 := fun h => hqsl (mem_rstrip h)
    obtain ⟨hE2ne, hE2root, hE2nl, hE2sl, hE2rs, hE2gsi, hE2shape, hE2norm⟩ :=
      table_entry_facts fl2 ((get_semitone_index e1 + s2) % 12) (hmod _)
    set e2 := (if fl2 then CHROMATIC_FLAT else CHROMATIC_SHARP).getD
      ((get_semitone_index e1 + s2) % 12) [] with he2def
    have h3 : transpose_chord (transpose_chord (c :: bs) s fl1) s2 fl2 =
        e2 ++ rstrip q1 ++ [] := by
      have h := transpose_chord_structure2 (transpose_chord (c :: bs) s fl1)
        s2 fl2 hroot2ne
      rw [h12] at h
      exact h
    have h4 : parse_chord (e2 ++ rstrip q1 ++ []) =
        ⟨e2, rstrip (rstrip q1), none⟩ :=
      parse_chord_reparse e2 (rstrip q1) none hE2ne hE2root hE2rs hE2sl hE2shape
        hE2norm hqnlr hqslr hq3r (fun nb h => Option.noConfusion h)
    refine ⟨?_, ?_⟩
    · show get_semitone_index (parse_chord (transpose_chord
        (transpose_chord (c :: bs) s fl1) s2 fl2)).root = get_semitone_index r1
      rw [h3, h4]
      show get_semitone_index e2 = get_semitone_index r1
      rw [hE2gsi, hE1gsi, hcancel _ (gsi_lt_12 r1)]
    · rw [bassPitchClass_eq, bassPitchClass_eq, h3, h4, htb]
      rfl
  | some bs2 =>
    obtain ⟨hE1bne, hE1broot, hE1bnl, hE1bsl, hE1brs, hE1bgsi, hE1bshape,
      hE1bnorm⟩ := table_entry_facts fl1 ((get_semitone_index bs2 + s) % 12)
        (hmod _)
    set e1b := (if fl1 then CHROMATIC_FLAT else CHROMATIC_SHARP).getD
      ((get_semitone_index bs2 + s) % 12) [] with he1bdef
    have h1 : transpose_chord (c :: bs) s fl1 = e1 ++ q1 ++ '/' :: e1b := by
      have h := transpose_chord_structure2 (c :: bs) s fl1 hrne
      rw [htb] at h
      exact h
    have h12 : parse_chord (transpose_chord (c :: bs) s fl1) =
        ⟨e1, q1, some e1b⟩ := by
      rw [h1]
      exact parse_chord_reparse e1 q1 (some e1b) hE1ne hE1root hE1rs hE1sl
        hE1shape hE1norm hqnl hqsl hq3
        (fun nb h => by cases h; exact ⟨hE1bne, hE1brs, hE1bsl⟩)
    have hroot2ne : (parse_chord (transpose_chord (c :: bs) s fl1)).root ≠ [] := by
      rw [h12]
      exact hE1ne
    obtain ⟨hE2ne, hE2root, hE2nl, hE2sl, hE2rs, hE2gsi, hE2shape, hE2norm⟩ :=
      table_entry_facts fl2 ((get_semitone_index e1 + s2) % 12) (hmod _)
    set e2 := (if fl2 then CHROMATIC_FLAT else CHROMATIC_SHARP).getD
      ((get_semitone_index e1 + s2) % 12) [] with he2def
    obtain ⟨hE2bne, hE2broot, hE2bnl, hE2bsl, hE2brs, hE2bgsi, hE2bshape,
      hE2bnorm⟩ := table_entry_facts fl2 ((get_semitone_index e1b + s2) % 12)
        (hmod _)
    set e2b := (if fl2 then CHROMATIC_FLAT else CHROMATIC_SHARP).getD
      ((get_semitone_index e1b + s2) % 12) [] with he2bdef
    have h3 : transpose_chord (transpose_chord (c :: bs) s fl1) s2 fl2 =
        e2 ++ q1 ++ '/' :: e2b := by
      have h := transpose_chord_structure2 (transpose_chord (c :: bs) s fl1)
        s2 fl2 hroot2ne
      rw [h12] at h
      rw [show truthyBass (ChordInfo.mk e1 q1 (some e1b)).bass = some e1b from
        by simp [truthyBass, hE1bne]] at h
      exact h
    have h4 : parse_chord (e2 ++ q1 ++ '/' :: e2b) = ⟨e2, q1, some e2b⟩ :=
      parse_chord_reparse e2 q1 (some e2b) hE2ne hE2root hE2rs hE2sl hE2shape
        hE2norm hqnl hqsl hq3
        (fun nb h => by cases h; exact ⟨hE2bne, hE2brs, hE2bsl⟩)
    refine ⟨?_, ?_⟩
    · show get_semitone_index (parse_chord (transpose_chord
        (transpose_chord (c :: bs) s fl1) s2 fl2)).root = get_semitone_index r1
      rw [h3, h4]
      show get_semitone_index e2 = get_semitone_index r1
      rw [hE2gsi, hE1gsi, hcancel _ (gsi_lt_12 r1)]
    · rw [bassPitchClass_eq, bassPitchClass_eq, h3, h4, htb]
      rw [show truthyBass (ChordInfo.mk e2 q1 (some e2b)).bass = some e2b from
        by simp [truthyBass, hE2bne]]
      rw [Option.map_some', Option.map_some', hE2bgsi, hE1bgsi,
        hcancel _ (gsi_lt_12 bs2)]


/-- **C5 counterexample.** The round trip is not pitch-preserving in general:
the document `[C#b9]` transposed from C to C# becomes `[Db9]`, and back from
C# to C becomes `[C9]` — the re-parse of `Db9` absorbs the `b` of the `b9`
quality into the root, so the root pitch class changes from 1 (C#) to 0 (C). -/
theorem c5_round_trip_cex :
    chordPitchClasses (transpose_chordpro
        (transpose_chordpro ("[C#b9]".data) ("C".data) ("C#".data))
        ("C#".data) ("C".data)) ≠
      chordPitchClasses ("[C#b9]".data) ∧
    transpose_chordpro ("[C#b9]".data) ("C".data) ("C#".data) = "[Db9]".data ∧
    transpose_chordpro ("[Db9]".data) ("C#".data) ("C".data) = "[C9]".data ∧
    chordPitchClasses ("[C#b9]".data) = [(1, none)] ∧
    chordPitchClasses (transpose_chordpro
        (transpose_chordpro ("[C#b9]".data) ("C".data) ("C#".data))
        ("C#".data) ("C".data)) = [(0, none)] := by
  refine ⟨by decide, by decide, by decide, by decide, by decide⟩

/-- **C5 (amended).** Round-trip pitch identity holds for every document none
of whose bracketed chords parses to a quality beginning with an accidental
(`#` or `b`): transposing from `K1` to `K2` and the result back from `K2` to
`K1` yields a document whose bracketed chords have, in order, exactly the
original root and bass pitch classes. -/
theorem c5_round_trip_pitch_classes (content K1 K2 : List Char)
    (H : ∀ b ∈ chordBodies (tokenize content),
      isAccidental ((parse_chord b).quality.headD ' ') = false) :
    chordPitchClasses (transpose_chordpro (transpose_chordpro content K1 K2)
        K2 K1) =
      chordPitchClasses content := by
  have hsum := shift_props K1 K2
  by_cases hz : calculate_transpose_semitones K1 K2 = 0
  · have hz2 : calculate_transpose_semitones K2 K1 = 0 := (hsum.2).mp hz
    have e1 : transpose_chordpro content K1 K2 = content := by
      simp only [transpose_chordpro]
      rw [if_pos hz]
    have e2 : transpose_chordpro content K2 K1 = content := by
      simp only [transpose_chordpro]
      rw [if_pos hz2]
    rw [e1, e2]
  · have hz2 : calculate_transpose_semitones K2 K1 ≠ 0 :=
      fun h => hz ((hsum.2).mpr h)
    have hT : ∀ (x fk tk : List Char), calculate_transpose_semitones fk tk ≠ 0 →
        transpose_chordpro x fk tk =
          flattenPieces (mapChords (fun c => transpose_chord c
            (calculate_transpose_semitones fk tk) (FLAT_KEYS.contains tk))
            (tokenize x)) := by
      intro x fk tk h
      simp only [transpose_chordpro]
      rw [if_neg h]
    have hgood0 : GoodPieces (tokenize content) := goodPieces_tokenize content
    have hgood1 : GoodPieces (mapChords (fun c => transpose_chord c
        (calculate_transpose_semitones K1 K2) (FLAT_KEYS.contains K2))
        (tokenize content)) :=
      goodPieces_mapChords _
        (fun b hb => (transpose_chord_good _ _ b hb).1) hgood0
    have hgood2 : GoodPieces (mapChords (fun c => transpose_chord c
        (calculate_transpose_semitones K2 K1) (FLAT_KEYS.contains K1))
        (mapChords (fun c => transpose_chord c
          (calculate_transpose_semitones K1 K2) (FLAT_KEYS.contains K2))
          (tokenize content))) :=
      goodPieces_mapChords _
        (fun b hb => (transpose_chord_good _ _ b hb).1) hgood1
    rw [hT (transpose_chordpro content K1 K2) K2 K1 hz2, hT content K1 K2 hz,
      tokenize_flatten_good hgood1]
    simp only [chordPitchClasses]
    rw [tokenize_flatten_good hgood2, chordBodies_mapChords,
      chordBodies_mapChords, List.map_map, List.map_map]
    apply List.map_congr_left
    intro b hb
    have hgb : goodBody b := goodBody_of_mem_chordBodies hgood0 hb
    have hH : ∀ a, (parse_chord b).quality.head? = some a →
        isAccidental a = false := by
      intro a ha
      have h2 := H b hb
      cases hq : (parse_chord b).quality with
      | nil =>
        rw [hq] at ha
        simp at ha
      | cons x xs =>
        rw [hq] at ha h2
        simp only [List.head?_cons, Option.some.injEq] at ha
        simp only [List.headD_cons] at h2
        rw [← ha]
        exact h2
    have hrt := roundtrip_pointwise (calculate_transpose_semitones K1 K2)
      (calculate_transpose_semitones K2 K1) (FLAT_KEYS.contains K2)
      (FLAT_KEYS.contains K1) (shift_props K1 K2).1 b hgb hH
    simp only [Function.comp_apply]
    rw [hrt.1, hrt.2]

/-- Witness for the amended round-trip theorem at a concrete document with a
root-only chord and a slash chord, between the keys G and A. -/
theorem c5_round_trip_pitch_classes_witness :
    (∀ b ∈ chordBodies (tokenize ("[G]la [D/F#]li".data)),
      isAccidental ((parse_chord b).quality.headD ' ') = false) ∧
    chordPitchClasses (transpose_chordpro
        (transpose_chordpro ("[G]la [D/F#]li".data) ("G".data) ("A".data))
        ("A".data) ("G".data)) =
      chordPitchClasses ("[G]la [D/F#]li".data) :=
  ⟨by decide, c5_round_trip_pitch_classes ("[G]la [D/F#]li".data) ("G".data)
    ("A".data) (by decide)⟩

end ChordServiceTheorems
